import Mathlib

/-!
# DASP superpixel grouping: a shallow embedding of `DASP.cpp`

The definitions below follow `src/cxx_3d_seg/asp/src/libasp/algos/DASP.cpp`
function by function.  `std::vector` becomes `List`, `std::map<int,int>` becomes
a finite partial function, the `std::map` keyed by `edge_t` becomes a list kept
in the order of the comparator, and every place where the C++ code would read
outside a container or loop for ever yields `none`.
-/

namespace asp

/-! ## Part 1: definitions -/

namespace group_helper

/-- Union-find node: `struct Vertex { int id; int idx; int parent; int count=1; }`. -/
structure Vertex where
  id : Int
  idx : Nat
  parent : Nat
  count : Nat := 1
deriving DecidableEq, Repr

/-- Adjacency edge: `struct Edge { int v1; int v2; int count = 1; double weight = 0; }`. -/
structure Edge where
  v1 : Int
  v2 : Int
  count : Nat := 1
  weight : ℚ := 0
deriving DecidableEq, Repr

/-- The `while` loop of `find`.  One unit of fuel pays for one evaluation of the
loop condition `u_parent != vertices[u_parent].parent`; the result is `none`
when the fuel is used up or an index is outside the vector. -/
def findLoop (vertices : List Vertex) : Nat → Nat → Option Nat
  | 0, _ => none
  | fuel + 1, u_parent =>
    match vertices[u_parent]? with
    | none => none
    | some v =>
      if u_parent != v.parent then findLoop vertices fuel v.parent
      else some u_parent

/-- `int find(int idx, std::vector<Vertex>& vertices)`: start at
`vertices[idx].parent` and follow parent links up to a self-parenting vertex.
The fuel is the number of vertices. -/
def find (idx : Nat) (vertices : List Vertex) : Option Nat :=
  match vertices[idx]? with
  | none => none
  | some v => findLoop vertices vertices.length v.parent

/-- Key of the adjacency map: `struct edge_t { int v1; int v2; ... }`. -/
structure edge_t where
  v1 : Int
  v2 : Int
deriving DecidableEq, Repr

/-- `edge_t::operator==`: equality up to swapping the two members. -/
def edge_t.eqv (a rhs : edge_t) : Bool :=
  ((a.v1 == rhs.v1) && (a.v2 == rhs.v2)) || ((a.v1 == rhs.v2) && (a.v2 == rhs.v1))

/-- `edge_t::operator<`: `return v1 < rhs.v1;`.  This is the comparator that
`std::map<edge_t, ...>` uses. -/
def edge_t.lt (a rhs : edge_t) : Bool :=
  decide (a.v1 < rhs.v1)

end group_helper

open group_helper

/-- `std::map<int, T>` as a finite partial function; `none` stands for `end()`. -/
abbrev IntMap (α : Type) := Int → Option α

/-- The empty map. -/
def IntMap.empty {α : Type} : IntMap α := fun _ => none

/-- The assignment `m[k] = v`. -/
def IntMap.insert {α : Type} (m : IntMap α) (k : Int) (v : α) : IntMap α :=
  fun x => if x = k then some v else m x

/-- The loop `for i: id2idx[unique_id[i]] = i`, started at index `i`. -/
def buildId2idx : List Int → Nat → IntMap Nat → IntMap Nat
  | [], _, m => m
  | a :: rest, i, m => buildId2idx rest (i + 1) (m.insert a i)

/-- The loop `for i: Vertex v; v.id = unique_id[i]; v.idx = i; v.parent = i;
vertices.push_back(v)`, started at index `i` (the state called Init). -/
def initVertices : List Int → Nat → List Vertex
  | [], _ => []
  | a :: rest, i => { id := a, idx := i, parent := i } :: initVertices rest (i + 1)

/-- Body of the edge loop of `DsapGrouping` (lines 348-364): look up both
endpoints, find both roots and, when they differ, hang the root with the
smaller count under the other one, add the counts, and increment `count`. -/
def unionStep (id2idx : IntMap Nat) (st : List Vertex × Nat) (edge : Edge) :
    Option (List Vertex × Nat) := do
  let vertices := st.1
  let count := st.2
  let idx1 ← id2idx edge.v1
  let idx2 ← id2idx edge.v2
  let parent1 ← find idx1 vertices
  let parent2 ← find idx2 vertices
  if parent1 != parent2 then
    let p1 ← vertices[parent1]?
    let p2 ← vertices[parent2]?
    -- the swap `if(vertices[parent1].count>vertices[parent2].count)`
    let child := if p1.count > p2.count then parent2 else parent1
    let root := if p1.count > p2.count then parent1 else parent2
    -- `vertices[parent1].parent = parent2;`
    let vc ← vertices[child]?
    let vertices1 := vertices.set child { vc with parent := root }
    -- `vertices[parent2].count += vertices[parent1].count;`
    let vr ← vertices1[root]?
    let vc1 ← vertices1[child]?
    let vertices2 := vertices1.set root { vr with count := vr.count + vc1.count }
    pure (vertices2, count + 1)
  else
    pure (vertices, count)

/-- The edge loop `for(auto& edge: edges)` of the union pass. -/
def unionLoop (id2idx : IntMap Nat) : List Edge → List Vertex × Nat → Option (List Vertex × Nat)
  | [], st => some st
  | e :: es, st => (unionStep id2idx st e).bind (unionLoop id2idx es)

/-- The union pass from Init: `int count = 0; for(auto& edge: edges) ...`. -/
def unionPass (unique_id : List Int) (edges : List Edge) : Option (List Vertex × Nat) :=
  unionLoop (buildId2idx unique_id 0 IntMap.empty) edges (initVertices unique_id 0, 0)

/-- Body of the first relabel loop (lines 372-377): a root gets the next fresh id. -/
def relabelRootStep (vertices : List Vertex) (st : IntMap Nat × Nat) (v : Vertex) :
    Option (IntMap Nat × Nat) := do
  let parent ← find v.idx vertices
  if parent == v.idx then
    pure (st.1.insert v.id st.2, st.2 + 1)
  else
    pure st

/-- Body of the second relabel loop (lines 380-383): every vertex gets the id of
its root. -/
def relabelAllStep (vertices : List Vertex) (id2new : IntMap Nat) (v : Vertex) :
    Option (IntMap Nat) := do
  let parent ← find v.idx vertices
  let pv ← vertices[parent]?
  let newid ← id2new pv.id
  pure (id2new.insert v.id newid)

/-- A `for` loop over a vector whose body may fail. -/
def loopM {σ α : Type} (body : σ → α → Option σ) : List α → σ → Option σ
  | [], st => some st
  | a :: rest, st => (body st a).bind (loopM body rest)

/-- The relabel pass (lines 369-384); returns `id2new` and `newid_size`. -/
def relabelPass (vertices : List Vertex) : Option (IntMap Nat × Nat) := do
  let st ← loopM (relabelRootStep vertices) vertices (IntMap.empty, 0)
  let id2new ← loopM (relabelAllStep vertices) vertices st.1
  pure (id2new, st.2)

/-- Union pass followed by the relabel pass: the map from labels to final ids,
the number of fresh ids, the final vertex array and the merge counter. -/
def groupLabels (unique_id : List Int) (edges : List Edge) :
    Option (IntMap Nat × Nat × List Vertex × Nat) := do
  let st ← unionPass unique_id edges
  let r ← relabelPass st.1
  pure (r.1, r.2, st.1, st.2)

/-- Number of roots of a vertex array: vertices whose parent is their own index. -/
def numRoots (vertices : List Vertex) : Nat :=
  (vertices.filter (fun v => v.parent == v.idx)).length

/-- Two labels are joined by an edge of the list. -/
def edgeRel (edges : List Edge) (a b : Int) : Prop :=
  ∃ e ∈ edges, e.v1 = a ∧ e.v2 = b

/-- Two labels are connected by a path of edges (in either direction). -/
def Connected (edges : List Edge) (a b : Int) : Prop :=
  Relation.EqvGen (edgeRel edges) a b

/-- Adjacency of vertex indices `i, j < n`: some edge joins the labels at these
indices. -/
def vertexAdj (unique_id : List Int) (edges : List Edge) (i j : Fin unique_id.length) : Prop :=
  edgeRel edges (unique_id.get i) (unique_id.get j)

/-! ### Label image, adjacency scan and edge list -/

/-- The image container `slimage::Image<int,1>` of the external slimage
library, taken as its width, its height and the pixel accessor `img(x,y)`. -/
structure Image where
  width : Nat
  height : Nat
  pix : Nat → Nat → Int

/-- An image given by its rows, top row first. -/
def Image.ofRows (rows : List (List Int)) : Image :=
  { width := (rows.headD []).length
    height := rows.length
    pix := fun x y => (rows.getD y []).getD x (-1) }

/-- The rows of an image, top row first. -/
def Image.toRows (img : Image) : List (List Int) :=
  (List.range img.height).map (fun y => (List.range img.width).map (fun x => img.pix x y))

/-- The assignment `img(x,y) = v`. -/
def Image.set (img : Image) (x y : Nat) (v : Int) : Image :=
  { img with pix := fun x2 y2 => if x2 = x ∧ y2 = y then v else img.pix x2 y2 }

/-- Body of the label collection loop (lines 249-254): skip `-1`, push a label
that `std::find` does not find. -/
def pushUnique (unique_id : List Int) (i0 : Int) : List Int :=
  if i0 == -1 then unique_id
  else if unique_id.contains i0 then unique_id else unique_id ++ [i0]

/-- The label collection loops over `y` and `x` (lines 246-256). -/
def collectUnique (indices : Image) : List Int :=
  (List.range indices.height).foldl (fun acc y =>
    (List.range indices.width).foldl (fun acc x => pushUnique acc (indices.pix x y)) acc) []

/-- The vector `unique_id` after `std::sort` (line 257). -/
def uniqueIds (indices : Image) : List Int :=
  (collectUnique indices).insertionSort (· ≤ ·)

/-- The map `std::map<edge_t, std::vector<size_t>>`: its entries in the order of
the comparator `edge_t::operator<`. -/
abbrev EdgeMap := List (edge_t × List Nat)

/-- The statements `auto& r = edge2pixel[key]; r.push_back(..); r.push_back(..)`.
As in `std::map`, a key is found when neither it nor the stored key is less than
the other under the comparator; otherwise it is inserted at its place. -/
def EdgeMap.push : EdgeMap → edge_t → List Nat → EdgeMap
  | [], key, vals => [(key, vals)]
  | (k, r) :: rest, key, vals =>
    if key.lt k then (key, vals) :: (k, r) :: rest
    else if k.lt key then (k, r) :: EdgeMap.push rest key vals
    else (k, r ++ vals) :: rest

/-- Body of the scan loops for the anchor `(x,y)` with running counter `k`
(lines 277-292); the counter is incremented by the `for` statement, also after
`continue`. -/
def scanPixel (indices : Image) (x y : Nat) (st : EdgeMap × Nat) : EdgeMap × Nat :=
  let edge2pixel := st.1
  let k := st.2
  let i0 := indices.pix x y
  if i0 == -1 then (edge2pixel, k + 1)
  else
    ([0, 1].foldl (fun m i => [0, 1].foldl (fun m j =>
        if i > 0 && j > 0 then
          let i_ := indices.pix (x + i) (y + j)
          if i0 != i_ && i_ != -1 then
            EdgeMap.push m { v1 := i0, v2 := i_ } [k, k + i + j * indices.width]
          else m
        else m) m) edge2pixel, k + 1)

/-- The unsigned 32-bit value of `n - 2` for an image dimension `n` (itself an
unsigned 32-bit number): below 2 the subtraction wraps around `2^32`. -/
def wrapSub2 (n : Nat) : Nat := if n < 2 then n + 4294967294 else n - 2

/-- The scan loops `for(int y=0; y<height-2; y++) for(int x=0; x<width-2; x++, k++)`
(lines 273-294).  The bounds are unsigned and wrap below 2; a bound of `2^31` or
more cannot be reached by the `int` counter without a read outside the image or
a signed overflow, and the result is then `none`. -/
def buildAdjacency (indices : Image) : Option EdgeMap :=
  let ylim := wrapSub2 indices.height
  let xlim := wrapSub2 indices.width
  if 2147483648 ≤ ylim then none
  else if 0 < ylim ∧ 2147483648 ≤ xlim then none
  else
    some ((List.range ylim).foldl (fun st y =>
      (List.range xlim).foldl (fun st x => scanPixel indices x y st) st) ([], 0)).1

/-- What the edge weight evaluator reads from the two endpoint superpixels:
`convexAngle v1 v2` is `(center1-center2).normalized().dot(normal1)` and
`cosNorm v1 v2` is `normal1.dot(normal2)`, as exact numbers. -/
structure Geometry where
  convexAngle : Int → Int → ℚ
  cosNorm : Int → Int → ℚ

/-- The local variable `weight` at the end of lines 311-327. -/
def localWeight (convex_angle : ℚ) : ℚ :=
  let isConvex : Bool := if convex_angle < 0 then false else true
  let weight : ℚ := 0
  if !isConvex then
    let weight : ℚ := 100
    if convex_angle < -0.5 then 100 else weight
  else
    0.25 * weight * weight

/-- Body of the edge extraction loop (lines 297-329).  The local `weight` is
computed and then `edge.weight = 0` is stored. -/
def makeEdge (geom : Geometry) (entry : edge_t × List Nat) : Edge :=
  let v1 := entry.1.v1
  let v2 := entry.1.v2
  let convex_angle := geom.convexAngle v1 v2
  let _cos_norm := geom.cosNorm v1 v2
  let _weight := localWeight convex_angle
  { v1 := v1, v2 := v2, count := entry.2.length, weight := 0 }

/-- The edge list before sorting: one edge per entry of the adjacency map. -/
def adjacencyEdges (geom : Geometry) (indices : Image) : Option (List Edge) :=
  (buildAdjacency indices).map (fun edge2pixel => edge2pixel.map (makeEdge geom))

/-- The number the claim about the scan counts: positions `(x,y)` with
`x+1 < W` and `y+1 < H` whose label and whose diagonal neighbour's label are
both valid and distinct. -/
def diagonalPairs (indices : Image) : Nat :=
  ((List.range indices.height).map (fun y =>
    ((List.range indices.width).filter (fun x =>
      decide (x + 1 < indices.width) && decide (y + 1 < indices.height) &&
        (indices.pix x y != -1) && (indices.pix (x + 1) (y + 1) != -1) &&
        (indices.pix x y != indices.pix (x + 1) (y + 1)))).length)).sum

/-! ### Consistency checks, merge stage and output image -/

/-- `std::unique`: drop every element equal to its predecessor. -/
def unique : List Int → List Int
  | a :: b :: rest => if a = b then unique (b :: rest) else a :: unique (b :: rest)
  | l => l

/-- The vector `test` (lines 334-340): both endpoints of every edge, sorted,
without repetitions. -/
def edgeLabels (edges : List Edge) : List Int :=
  unique ((edges.foldl (fun test e => test ++ [e.v1, e.v2]) []).insertionSort (· ≤ ·))

/-- Why a run of `DsapGrouping` does not return an image. -/
inductive Abort where
  | assertLabels
  | assertCount
  | undefinedBehaviour
deriving DecidableEq, Repr

/-- The merge stage (lines 334-384): the assertion `test == unique_id`, the union
pass, the assertion `count == int(unique_id.size()-1)` and the relabel pass.
With `ndebug` the assertions are compiled out. -/
def mergeStage (ndebug : Bool) (unique_id : List Int) (edges : List Edge) :
    Except Abort (IntMap Nat × Nat) :=
  if !ndebug && edgeLabels edges != unique_id then Except.error Abort.assertLabels
  else
    match unionPass unique_id edges with
    | none => Except.error Abort.undefinedBehaviour
    | some (vertices, count) =>
      if !ndebug && (count : Int) != (unique_id.length : Int) - 1 then
        Except.error Abort.assertCount
      else
        match relabelPass vertices with
        | none => Except.error Abort.undefinedBehaviour
        | some r => Except.ok r

/-- Body of the output loops (lines 389-393): `-1` stays, every other pixel gets
`id2new.find(i0)->second`. -/
def relabelPixel (id2new : IntMap Nat) (y : Nat) (group : Image) (x : Nat) : Option Image :=
  let i0 := group.pix x y
  if i0 == -1 then some group
  else
    match id2new i0 with
    | none => none
    | some newid => some (group.set x y (newid : Int))

/-- The output loops over `y` and `x` on the copy `group` of the label image. -/
def relabelImage (id2new : IntMap Nat) (indices : Image) : Option Image :=
  loopM (fun group y => loopM (relabelPixel id2new y) (List.range indices.width) group)
    (List.range indices.height) indices

/-- `DsapGrouping` from the label image `seg.indices` on (lines 242-396).  The
order in which `std::sort` leaves edges of equal weight is not specified, so the
sort is the parameter `sorter`. -/
def DsapGroupingFrom (ndebug : Bool) (sorter : List Edge → List Edge) (geom : Geometry)
    (indices : Image) : Except Abort Image :=
  let unique_id := uniqueIds indices
  match adjacencyEdges geom indices with
  | none => Except.error Abort.undefinedBehaviour
  | some unsorted =>
    let edges := sorter unsorted
    match mergeStage ndebug unique_id edges with
    | Except.error e => Except.error e
    | Except.ok r =>
      match relabelImage r.1 indices with
      | none => Except.error Abort.undefinedBehaviour
      | some group => Except.ok group

/-- How the output loops change one pixel: `-1` stays `-1`, a label becomes the
id that `id2new` holds for it. -/
def Relabelled (id2new : IntMap Nat) (old new : Int) : Prop :=
  (old = -1 ∧ new = -1) ∨ (old ≠ -1 ∧ ∃ k : Nat, id2new old = some k ∧ new = (k : Int))

/-! ### Density normalisation -/

/-- A `float` value with rounding left out: a finite number, an infinity or NaN. -/
inductive FVal where
  | fin (q : ℚ)
  | pinf
  | ninf
  | nan
deriving DecidableEq, Repr

/-- Float addition on `FVal`. -/
def FVal.add : FVal → FVal → FVal
  | FVal.fin a, FVal.fin b => FVal.fin (a + b)
  | FVal.nan, _ => FVal.nan
  | _, FVal.nan => FVal.nan
  | FVal.pinf, FVal.ninf => FVal.nan
  | FVal.ninf, FVal.pinf => FVal.nan
  | FVal.pinf, _ => FVal.pinf
  | _, FVal.pinf => FVal.pinf
  | FVal.ninf, _ => FVal.ninf
  | _, FVal.ninf => FVal.ninf

/-- The infinity of the given sign. -/
def FVal.inf (negative : Bool) : FVal := if negative then FVal.ninf else FVal.pinf

/-- Float multiplication on `FVal`: zero times an infinity is NaN. -/
def FVal.mul : FVal → FVal → FVal
  | FVal.fin a, FVal.fin b => FVal.fin (a * b)
  | FVal.nan, _ => FVal.nan
  | _, FVal.nan => FVal.nan
  | FVal.fin a, FVal.pinf => if a = 0 then FVal.nan else FVal.inf (decide (a < 0))
  | FVal.fin a, FVal.ninf => if a = 0 then FVal.nan else FVal.inf (decide (0 < a))
  | FVal.pinf, FVal.fin b => if b = 0 then FVal.nan else FVal.inf (decide (b < 0))
  | FVal.ninf, FVal.fin b => if b = 0 then FVal.nan else FVal.inf (decide (0 < b))
  | FVal.pinf, FVal.pinf => FVal.pinf
  | FVal.ninf, FVal.ninf => FVal.pinf
  | FVal.pinf, FVal.ninf => FVal.ninf
  | FVal.ninf, FVal.pinf => FVal.ninf

/-- Float division on `FVal`: a non-zero number over zero is an infinity, zero
over zero and infinity over infinity are NaN. -/
def FVal.div : FVal → FVal → FVal
  | FVal.fin a, FVal.fin b =>
    if b = 0 then (if a = 0 then FVal.nan else FVal.inf (decide (a < 0)))
    else FVal.fin (a / b)
  | FVal.nan, _ => FVal.nan
  | _, FVal.nan => FVal.nan
  | FVal.fin _, _ => FVal.fin 0
  | FVal.pinf, FVal.fin b => FVal.inf (decide (b < 0))
  | FVal.ninf, FVal.fin b => FVal.inf (decide (0 ≤ b))
  | _, _ => FVal.nan

/-- The accumulation `total_density += q.density` over all pixels (lines 209-212). -/
def totalDensity (density : List FVal) : FVal :=
  density.foldl FVal.add (FVal.fin 0)

/-- The factor `static_cast<float>(opt.num_superpixels) / total_density` (line 214). -/
def densityScaleFactor (num_superpixels : Nat) (density : List FVal) : FVal :=
  FVal.div (FVal.fin num_superpixels) (totalDensity density)

/-- The density normalisation step of `SuperpixelsDasp` (lines 207-219) on the
densities of all pixels. -/
def normaliseDensity (num_superpixels : Nat) (density : List FVal) : List FVal :=
  if num_superpixels > 0 then
    let density_scale_factor := densityScaleFactor num_superpixels density
    density.map (fun q => FVal.mul q density_scale_factor)
  else density

/-! ### Depth gradient, normals and density -/

/-- `float LocalFiniteDifferencesPrimesense(uint16_t v0, ..., uint16_t v4)`
(lines 51-88).  The five samples are converted to numbers without loss; the
arithmetic of the blend is exact. -/
def LocalFiniteDifferencesPrimesense (v0 v1 v2 v3 v4 : Nat) : ℚ :=
  let v0f : ℚ := v0
  let v1f : ℚ := v1
  let v2f : ℚ := v2
  let v3f : ℚ := v3
  let v4f : ℚ := v4
  if v0 == 0 && v4 == 0 && v1 != 0 && v3 != 0 then v3f - v1f
  else
    let left_invalid := (v0 == 0 || v1 == 0)
    let right_invalid := (v3 == 0 || v4 == 0)
    if left_invalid && right_invalid then 0
    else if left_invalid then v4f - v2f
    else if right_invalid then v2f - v0f
    else
      let a := abs (v2f + v0f - 2 * v1f)
      let b := abs (v4f + v2f - 2 * v3f)
      let p := if a + b = 0 then 1 / 2 else a / (a + b)
      let q := if a + b = 0 then 1 / 2 else b / (a + b)
      q * (v2f - v0f) + p * (v4f - v2f)

/-- Unsigned 32-bit subtraction `a - b` of two unsigned 32-bit numbers. -/
def usub (a b : Nat) : Nat := if a < b then a + 4294967296 - b else a - b

/-- Unsigned 32-bit addition `a + b` of two unsigned 32-bit numbers. -/
def uadd (a b : Nat) : Nat := if a + b < 4294967296 then a + b else a + b - 4294967296

/-- The depth image `slimage::Image1ui16` of the external slimage library:
width, height and the pixel accessor. -/
structure DepthImage where
  width : Nat
  height : Nat
  pix : Nat → Nat → Nat

/-- The read `depth(x,y)`; `none` when the position is outside the image. -/
def DepthImage.read (depth : DepthImage) (x y : Nat) : Option Nat :=
  if x < depth.width ∧ y < depth.height then some (depth.pix x y) else none

/-- The window width of `LocalDepthGradient` (lines 99-100) from the value of
`static_cast<unsigned int>(window + 0.5f)`: at least 4, and made even. -/
def windowWidth (rounded : Nat) : Nat :=
  let w := max rounded 4
  if w % 2 == 1 then uadd w 1 else w

/-- The border test of `LocalDepthGradient` (line 103), in unsigned arithmetic. -/
def borderTest (depth : DepthImage) (j i w : Nat) : Bool :=
  decide (i < w) || decide (usub depth.height w ≤ i) ||
    decide (j < w) || decide (usub depth.width w ≤ j)

/-- The eight neighbour positions that `LocalDepthGradient` reads (lines 107-121). -/
def neighbourReads (j i w : Nat) : List (Nat × Nat) :=
  [(usub j w, i), (usub j (w / 2), i), (uadd j (w / 2), i), (uadd j w, i),
   (j, usub i w), (j, usub i (w / 2)), (j, uadd i (w / 2)), (j, uadd i w)]

/-- `LocalDepthGradient` (lines 91-130) for the pixel `(j,i)`.  The parameters
`rounded` and `scale` stand for the two numbers the code computes in floating
point from the depth and the options: `static_cast<unsigned int>(window + 0.5f)`
and `scl*opt.depth_to_z`.  A read outside the image gives `none`. -/
def LocalDepthGradient (depth : DepthImage) (j i : Nat) (rounded : Nat) (scale : ℚ) :
    Option (ℚ × ℚ) := do
  let d00 ← depth.read j i
  let w := windowWidth rounded
  if borderTest depth j i w then
    pure (0, 0)
  else
    let l2 ← depth.read (usub j w) i
    let l1 ← depth.read (usub j (w / 2)) i
    let r1 ← depth.read (uadd j (w / 2)) i
    let r2 ← depth.read (uadd j w) i
    let dx := LocalFiniteDifferencesPrimesense l2 l1 d00 r1 r2
    let u2 ← depth.read j (usub i w)
    let u1 ← depth.read j (usub i (w / 2))
    let d1 ← depth.read j (uadd i (w / 2))
    let d2 ← depth.read j (uadd i w)
    let dy := LocalFiniteDifferencesPrimesense u2 u1 d00 d1 d2
    pure (scale * dx, scale * dy)

/-- A vector `Eigen::Vector3f` with exact components. -/
structure Vec3 (K : Type) where
  x : K
  y : K
  z : K

/-- The product `a.dot(b)`. -/
def Vec3.dot {K : Type} [Field K] (a b : Vec3 K) : K := a.x * b.x + a.y * b.y + a.z * b.z

/-- The multiple `s * a`. -/
def Vec3.smul {K : Type} [Field K] (s : K) (a : Vec3 K) : Vec3 K :=
  { x := s * a.x, y := s * a.y, z := s * a.z }

/-- `NormalFromGradient` (lines 133-148) with the square root as a parameter. -/
def NormalFromGradient {K : Type} [LinearOrderedField K] (sqrt : K → K) (g : K × K)
    (position : Vec3 K) : Vec3 K :=
  let gx := g.1
  let gy := g.2
  let scl := 1 / sqrt (1 + gx * gx + gy * gy)
  let normal : Vec3 K := { x := scl * gx, y := scl * gy, z := -scl }
  let q := normal.dot (Vec3.smul (-1) position)
  if q < 0 then Vec3.smul (-1) normal else normal

/-- `Density` (lines 157-161) with the square root as a parameter; `radius` and
`focal_px` are the two options it reads. -/
def Density {K : Type} [Field K] (sqrt : K → K) (depth : K) (gradient : K × K)
    (radius focal_px : K) : K :=
  let q := depth / (radius * focal_px)
  q * q / 3.1415 * sqrt ((gradient.1 * gradient.1 + gradient.2 * gradient.2) + 1)

/-! ### Single-precision arithmetic and the distance metric

The distance metric is `float` code.  Each operation is modelled as the exact
operation on `FVal` followed by rounding to IEEE binary32 (round to nearest,
ties to even, gradual underflow), one rounding per operation in the order the
expression is written (no fused multiply-add).  The sign of a zero is not
tracked; no value below depends on it other than through `1/0 = +inf`, where
the zero is the square `radius*radius` and so not negative. -/

/-- Float negation on `FVal`. -/
def FVal.neg : FVal → FVal
  | FVal.fin a => FVal.fin (-a)
  | FVal.pinf => FVal.ninf
  | FVal.ninf => FVal.pinf
  | FVal.nan => FVal.nan

/-- The integer nearest to `m`, the even one of the two when `m` lies half way. -/
def roundEven (m : ℚ) : ℤ :=
  let f := ⌊m⌋
  if m - f < 1 / 2 then f
  else if 1 / 2 < m - f then f + 1
  else if f % 2 = 0 then f else f + 1

/-- The spacing of the `float` (IEEE binary32) numbers around `q`: `2^(e-23)`
for `2^e <= |q| < 2^(e+1)`, with `e` not below -126 (the subnormal range). -/
def ulp32 (q : ℚ) : ℚ := (2 : ℚ) ^ (max (Int.log 2 (abs q)) (-126) - 23)

/-- Rounding of an exact result to `float`, to nearest with ties to even: a
result of magnitude `2^128 - 2^103` or more becomes an infinity, every other one
the nearest multiple of the spacing (so a tiny one becomes 0).  The sign of a
zero is not kept. -/
def round32 (q : ℚ) : FVal :=
  if 340282356779733661637539395458142568448 ≤ abs q then
    (if q < 0 then FVal.ninf else FVal.pinf)
  else FVal.fin ((roundEven (q / ulp32 q) : ℚ) * ulp32 q)

/-- Rounding of the result of an operation: infinities and NaN stay. -/
def roundF : FVal → FVal
  | FVal.fin q => round32 q
  | v => v

/-- The `float` sum `a + b`. -/
def F32.add (a b : FVal) : FVal := roundF (FVal.add a b)

/-- The `float` difference `a - b`. -/
def F32.sub (a b : FVal) : FVal := roundF (FVal.add a (FVal.neg b))

/-- The `float` product `a * b`. -/
def F32.mul (a b : FVal) : FVal := roundF (FVal.mul a b)

/-- The `float` quotient `a / b`. -/
def F32.div (a b : FVal) : FVal := roundF (FVal.div a b)

/-- The product `a.dot(b)` of two `Eigen::Vector3f`, summed from the left. -/
def F32.dot (a b : Vec3 FVal) : FVal :=
  F32.add (F32.add (F32.mul a.x b.x) (F32.mul a.y b.y)) (F32.mul a.z b.z)

/-- The difference `a - b` of two `Eigen::Vector3f`. -/
def F32.vsub (a b : Vec3 FVal) : Vec3 FVal :=
  { x := F32.sub a.x b.x, y := F32.sub a.y b.y, z := F32.sub a.z b.z }

/-- The value `a.squaredNorm()` of an `Eigen::Vector3f`. -/
def F32.squaredNorm (a : Vec3 FVal) : FVal := F32.dot a a

/-- `NormalDistance` (lines 164-168): `1.0f - a.dot(b)`. -/
def NormalDistance (a b : Vec3 FVal) : FVal := F32.sub (FVal.fin 1) (F32.dot a b)

/-- The fields of the pixel data `PixelRgbd` that the distance metric reads. -/
structure PixelRgbd (K : Type) where
  color : Vec3 K
  world : Vec3 K
  normal : Vec3 K

/-- The distance function handed to ALIC by `SuperpixelsDasp` (lines 223-230),
with its captures `COMPACTNESS`, `NORMAL_WEIGHT` and `RADIUS_SCL`, in `float`
arithmetic. -/
def distanceLambda (COMPACTNESS NORMAL_WEIGHT RADIUS_SCL : FVal)
    (a b : PixelRgbd FVal) : FVal :=
  F32.add
    (F32.mul (F32.mul COMPACTNESS (F32.squaredNorm (F32.vsub a.world b.world))) RADIUS_SCL)
    (F32.mul (F32.sub (FVal.fin 1) COMPACTNESS)
      (F32.add
        (F32.mul (F32.sub (FVal.fin 1) NORMAL_WEIGHT)
          (F32.squaredNorm (F32.vsub a.color b.color)))
        (F32.mul NORMAL_WEIGHT (NormalDistance a.normal b.normal))))

/-- The distance metric of `SuperpixelsDasp` for the options `compactness`,
`normal_weight` and `radius`: the capture `RADIUS_SCL` is
`1.0f/(opt.radius*opt.radius)`. -/
def SuperpixelsDaspDistance (compactness normal_weight radius : FVal)
    (a b : PixelRgbd FVal) : FVal :=
  distanceLambda compactness normal_weight
    (F32.div (FVal.fin 1) (F32.mul radius radius)) a b

/-- The components of a vector as finite `float` values. -/
def Vec3.toF32 (v : Vec3 ℚ) : Vec3 FVal :=
  { x := FVal.fin v.x, y := FVal.fin v.y, z := FVal.fin v.z }

/-- A pixel with color (1,0,1), world point (2,3,4) and normal (0,0,-1). -/
def samplePixel : PixelRgbd FVal :=
  { color := Vec3.toF32 { x := 1, y := 0, z := 1 }
    world := Vec3.toF32 { x := 2, y := 3, z := 4 }
    normal := Vec3.toF32 { x := 0, y := 0, z := -1 } }

/-- The pixel `samplePixel` with the normal `(s, s, -s)`, `s = 9686330/2^24`
(0.57735026, the `float` nearest to `1/sqrt 3`). -/
def tiltedPixel : PixelRgbd FVal :=
  { color := Vec3.toF32 { x := 1, y := 0, z := 1 }
    world := Vec3.toF32 { x := 2, y := 3, z := 4 }
    normal := Vec3.toF32 { x := 9686330 / 16777216, y := 9686330 / 16777216,
                           z := -(9686330 / 16777216) } }

/-! ### States of the union pass -/

/-- The states of the edge loop of `DsapGrouping`: Init, and every state that
the loop body produces from such a state on an edge between two labels. -/
inductive Reachable (unique_id : List Int) : List Vertex × Nat → Prop where
  | init : Reachable unique_id (initVertices unique_id 0, 0)
  | step {st st2 : List Vertex × Nat} (e : Edge) :
      Reachable unique_id st → e.v1 ∈ unique_id → e.v2 ∈ unique_id →
      unionStep (buildId2idx unique_id 0 IntMap.empty) st e = some st2 →
      Reachable unique_id st2

/-- The parent link of vertex `i`. -/
def parentOf (vertices : List Vertex) (i : Nat) : Nat :=
  match vertices[i]? with
  | some v => v.parent
  | none => i

/-- The count field of vertex `i`. -/
def countOf (vertices : List Vertex) (i : Nat) : Nat :=
  match vertices[i]? with
  | some v => v.count
  | none => 0

/-- The state of the union pass on the labels 2, 4, 6 after the edge (4,6). -/
def linkedState : List Vertex × Nat :=
  ([{ id := 2, idx := 0, parent := 0 }, { id := 4, idx := 1, parent := 2 },
    { id := 6, idx := 2, parent := 2, count := 2 }], 1)

/-- A 20x20 depth image. -/
def rampDepth : DepthImage :=
  { width := 20, height := 20, pix := fun x y => x + 2 * y + 1 }

/-! ### Example inputs -/

/-- A geometry in which every pair of superpixels is non-convex. -/
def concaveGeometry : Geometry :=
  { convexAngle := fun _ _ => -1, cosNorm := fun _ _ => 0 }

/-- A geometry in which the pair `(0,1)` is non-convex and every other pair is
convex with aligned normals. -/
def mixedGeometry : Geometry :=
  { convexAngle := fun a b => if a = 0 ∧ b = 1 then -1 else 1, cosNorm := fun _ _ => 1 }

/-- A 4x4 label image in which label 0 has the diagonal neighbours 1 and 2 and
label 1 has the diagonal neighbour 0. -/
def collisionImage : Image :=
  Image.ofRows [[0, 0, -1, -1], [-1, 1, 2, -1], [-1, -1, 0, -1], [-1, -1, -1, -1]]

/-- A 3x3 label image whose only diagonal label change is at position `(1,1)`. -/
def cornerImage : Image :=
  Image.ofRows [[0, 0, 0], [0, 0, 0], [0, 0, 1]]

/-- A 3x3 label image with two labels joined by one diagonal adjacency. -/
def pairImage : Image :=
  Image.ofRows [[0, -1, -1], [-1, 1, -1], [-1, -1, -1]]

/-- Invariant of the union-find array: `rt i` is the root reached from vertex
`i` and `dep i` the number of parent links on the way.  Every vertex keeps its
label and index, parent links lead to a self-parenting vertex, the depth of a
vertex is below the count of its root, and the count of a root is the number of
vertices below it. -/
structure Forest (unique_id : List Int) (vs : List Vertex) (rt dep : Nat → Nat) : Prop where
  len : vs.length = unique_id.length
  wf : ∀ (i : Nat) (v : Vertex), vs[i]? = some v → v.idx = i ∧ unique_id[i]? = some v.id ∧ v.parent < vs.length
  rootCase : ∀ (i : Nat) (v : Vertex), vs[i]? = some v → v.parent = i → rt i = i ∧ dep i = 0
  stepCase : ∀ (i : Nat) (v : Vertex), vs[i]? = some v → v.parent ≠ i → rt v.parent = rt i ∧ dep i = dep v.parent + 1
  rtRoot : ∀ i, i < vs.length → ∃ r : Vertex, vs[rt i]? = some r ∧ r.parent = rt i
  depLt : ∀ (i : Nat) (r : Vertex), i < vs.length → vs[rt i]? = some r → dep i < r.count
  cnt : ∀ (r : Nat) (v : Vertex), vs[r]? = some v → v.parent = r →
    v.count = ((Finset.range vs.length).filter (fun i => rt i = r)).card

/-- Adjacency of vertex indices through the lookup table `id2idx`. -/
def idxAdj (id2idx : IntMap Nat) (edges : List Edge) (i j : Nat) : Prop :=
  ∃ e ∈ edges, id2idx e.v1 = some i ∧ id2idx e.v2 = some j

/-- The lookup table agrees with the label list: `id2idx` sends a label to the
index at which it is stored, and nothing else to an index. -/
def TableOk (unique_id : List Int) (id2idx : IntMap Nat) : Prop :=
  ∀ a i, id2idx a = some i ↔ unique_id[i]? = some a

/-- State of the union pass after the edges `done`: the forest invariant, the
root function separates exactly the classes connected by `done`, and the merge
counter plus the number of roots is the number of vertices. -/
structure PassInv (unique_id : List Int) (id2idx : IntMap Nat) (done : List Edge)
    (vs : List Vertex) (count : Nat) (rt dep : Nat → Nat) : Prop where
  forest : Forest unique_id vs rt dep
  sound : ∀ i j, idxAdj id2idx done i j → rt i = rt j
  complete : ∀ i, i < vs.length → Relation.EqvGen (idxAdj id2idx done) i (rt i)
  counter : count + ((Finset.range vs.length).filter (fun i => rt i = i)).card = vs.length

/-- Number of roots among the first `m` vertices, for a root function `rt`. -/
def rootsBelow (rt : Nat → Nat) (m : Nat) : Nat :=
  ((Finset.range m).filter (fun i => rt i = i)).card

/-- What the union pass and the relabel pass establish together, for the label
list `unique_id`, the edge list `edges`, the final id map `id2new`, the number
`R` of ids handed out, the final vertex array `vs` and the merge counter `c`. -/
structure GroupSpec (unique_id : List Int) (edges : List Edge) (id2new : IntMap Nat)
    (R : Nat) (vs : List Vertex) (c : Nat) : Prop where
  lenEq : vs.length = unique_id.length
  total : ∀ a ∈ unique_id, ∃ k, k < R ∧ id2new a = some k
  onto : ∀ k, k < R → ∃ a ∈ unique_id, id2new a = some k
  sameId : ∀ a ∈ unique_id, ∀ b ∈ unique_id, (id2new a = id2new b ↔ Connected edges a b)
  roots : R = numRoots vs
  counter : c + R = unique_id.length
  components : R = Nat.card (Quot (vertexAdj unique_id edges))

end asp

namespace asp

open group_helper

/-! ## Part 2: lemmas and theorems -/

/-! ### Vertex arrays -/

theorem initVertices_getElem? (l : List Int) (k i : Nat) :
    (initVertices l k)[i]? = l[i]?.map (fun a => { id := a, idx := k + i, parent := k + i }) := by
  induction l generalizing k i with
  | nil => simp [initVertices]
  | cons a rest ih =>
    cases i with
    | zero => simp [initVertices]
    | succ i =>
      simp only [initVertices, List.getElem?_cons_succ, ih]
      congr 1
      funext a
      congr 1 <;> omega

theorem initVertices_length (l : List Int) (k : Nat) : (initVertices l k).length = l.length := by
  induction l generalizing k with
  | nil => rfl
  | cons a rest ih => simp [initVertices, ih]

theorem buildId2idx_spec (l : List Int) (k : Nat) (m : IntMap Nat) (hnd : l.Nodup) (a : Int) (i : Nat) :
    buildId2idx l k m a = some i ↔
      ((∃ j, l[j]? = some a ∧ i = k + j) ∨ (a ∉ l ∧ m a = some i)) := by
  induction l generalizing k m with
  | nil => simp [buildId2idx]
  | cons b rest ih =>
    have hb : b ∉ rest := (List.nodup_cons.mp hnd).1
    rw [buildId2idx, ih (k + 1) _ (List.nodup_cons.mp hnd).2]
    constructor
    · rintro (⟨j, hj, rfl⟩ | ⟨hn, hm⟩)
      · exact Or.inl ⟨j + 1, by simpa using hj, by omega⟩
      · by_cases hab : a = b
        · subst hab
          simp only [IntMap.insert, if_true, Option.some.injEq] at hm
          exact Or.inl ⟨0, by simp, by omega⟩
        · simp only [IntMap.insert, if_neg hab] at hm
          exact Or.inr ⟨by simp [hab, hn], hm⟩
    · rintro (⟨j, hj, rfl⟩ | ⟨hn, hm⟩)
      · cases j with
        | zero =>
          simp only [List.getElem?_cons_zero, Option.some.injEq] at hj
          subst hj
          exact Or.inr ⟨hb, by simp [IntMap.insert]⟩
        | succ j => exact Or.inl ⟨j, by simpa using hj, by omega⟩
      · simp only [List.mem_cons, not_or] at hn
        exact Or.inr ⟨hn.2, by simp [IntMap.insert, hn.1, hm]⟩

theorem tableOk_build (l : List Int) (hnd : l.Nodup) : TableOk l (buildId2idx l 0 IntMap.empty) := by
  intro a i
  rw [buildId2idx_spec l 0 _ hnd]
  constructor
  · rintro (⟨j, hj, rfl⟩ | ⟨_, hm⟩)
    · simpa using hj
    · simp [IntMap.empty] at hm
  · intro h
    exact Or.inl ⟨i, h, by omega⟩

/-! ### The forest invariant and `find` -/

theorem Forest.rt_lt {unique_id : List Int} {vs : List Vertex} {rt dep : Nat → Nat}
    (h : Forest unique_id vs rt dep) {i : Nat} (hi : i < vs.length) : rt i < vs.length := by
  obtain ⟨r, hr, _⟩ := h.rtRoot i hi
  exact (List.getElem?_eq_some.mp hr).1

theorem Forest.rt_idem {unique_id : List Int} {vs : List Vertex} {rt dep : Nat → Nat}
    (h : Forest unique_id vs rt dep) {i : Nat} (hi : i < vs.length) : rt (rt i) = rt i := by
  obtain ⟨r, hr, hp⟩ := h.rtRoot i hi
  exact (h.rootCase (rt i) r hr hp).1

theorem Forest.dep_lt_length {unique_id : List Int} {vs : List Vertex} {rt dep : Nat → Nat}
    (h : Forest unique_id vs rt dep) {i : Nat} (hi : i < vs.length) : dep i < vs.length := by
  obtain ⟨r, hr, hp⟩ := h.rtRoot i hi
  have h1 := h.depLt i r hi hr
  have h2 := h.cnt (rt i) r hr hp
  have h3 : ((Finset.range vs.length).filter (fun j => rt j = rt i)).card ≤ vs.length := by
    simpa using Finset.card_filter_le (Finset.range vs.length) (fun j => rt j = rt i)
  omega

theorem Forest.findLoop_eq {unique_id : List Int} {vs : List Vertex} {rt dep : Nat → Nat}
    (h : Forest unique_id vs rt dep) (fuel u : Nat) (hu : u < vs.length) (hd : dep u < fuel) :
    findLoop vs fuel u = some (rt u) := by
  induction fuel generalizing u with
  | zero => omega
  | succ fuel ih =>
    have hv : vs[u]? = some vs[u] := List.getElem?_eq_getElem hu
    simp only [findLoop, hv]
    by_cases hp : vs[u].parent = u
    · have := h.rootCase u _ hv hp
      simp [hp, this.1]
    · have h1 := h.stepCase u _ hv hp
      have h2 := (h.wf u _ hv).2.2
      have hne : (u != vs[u].parent) = true := by
        simp only [bne_iff_ne, ne_eq]
        exact fun e => hp e.symm
      rw [if_pos hne, ih _ h2 (by omega), h1.1]

theorem Forest.find_eq {unique_id : List Int} {vs : List Vertex} {rt dep : Nat → Nat}
    (h : Forest unique_id vs rt dep) {i : Nat} (hi : i < vs.length) :
    find i vs = some (rt i) := by
  have hv : vs[i]? = some vs[i] := List.getElem?_eq_getElem hi
  have h2 := (h.wf i _ hv).2.2
  simp only [find, hv]
  rw [h.findLoop_eq _ _ h2 (h.dep_lt_length h2)]
  by_cases hp : vs[i].parent = i
  · rw [hp]
  · rw [(h.stepCase i _ hv hp).1]

theorem Forest.init (unique_id : List Int) :
    Forest unique_id (initVertices unique_id 0) (fun i => i) (fun _ => 0) := by
  have hget : ∀ (i : Nat) (v : Vertex), (initVertices unique_id 0)[i]? = some v →
      unique_id[i]? = some v.id ∧ v.idx = i ∧ v.parent = i ∧ v.count = 1 := by
    intro i v hv
    rw [initVertices_getElem?] at hv
    cases ha : unique_id[i]? with
    | none => simp [ha] at hv
    | some a =>
      simp only [ha, Option.map_some', Option.some.injEq, Nat.zero_add] at hv
      subst hv
      simp
  constructor
  · exact initVertices_length _ _
  · intro i v hv
    obtain ⟨h1, h2, h3, _⟩ := hget i v hv
    refine ⟨h2, h1, ?_⟩
    rw [h3]
    exact (List.getElem?_eq_some.mp hv).1
  · intro i v _ _
    exact ⟨rfl, rfl⟩
  · intro i v hv hp
    exact absurd (hget i v hv).2.2.1 hp
  · intro i hi
    refine ⟨_, List.getElem?_eq_getElem hi, ?_⟩
    exact (hget i _ (List.getElem?_eq_getElem hi)).2.2.1
  · intro i r _ hr
    rw [(hget i r hr).2.2.2]
    exact Nat.zero_lt_one
  · intro r v hv _
    rw [(hget r v hv).2.2.2]
    have hr : r < (initVertices unique_id 0).length := (List.getElem?_eq_some.mp hv).1
    have : (Finset.range (initVertices unique_id 0).length).filter (fun i => i = r) = {r} := by
      ext x
      simp only [Finset.mem_filter, Finset.mem_range, Finset.mem_singleton]
      constructor
      · exact fun hx => hx.2
      · rintro rfl
        exact ⟨hr, rfl⟩
    rw [this]
    rfl

/-- Hanging the root `x` under the root `y` and adding its count keeps the
forest invariant, with every vertex of the tree of `x` now rooted at `y`. -/
theorem Forest.link {unique_id : List Int} {vs : List Vertex} {rt dep : Nat → Nat}
    (h : Forest unique_id vs rt dep) {x y : Nat} {vx vy : Vertex}
    (hx : vs[x]? = some vx) (hy : vs[y]? = some vy)
    (hxr : vx.parent = x) (hyr : vy.parent = y) (hxy : x ≠ y)
    (vs2 : List Vertex) (hlen : vs2.length = vs.length)
    (hget : ∀ i : Nat, vs2[i]? =
      if i = y then some { vy with count := vy.count + vx.count }
      else if i = x then some { vx with parent := y } else vs[i]?) :
    Forest unique_id vs2 (fun i => if rt i = x then y else rt i)
      (fun i => if rt i = x then dep i + 1 else dep i) := by
  have hxl : x < vs.length := (List.getElem?_eq_some.mp hx).1
  have hyl : y < vs.length := (List.getElem?_eq_some.mp hy).1
  have hrx := h.rootCase x vx hx hxr
  have hry := h.rootCase y vy hy hyr
  have hyx : y ≠ x := fun e => hxy e.symm
  have hcy : 0 < vy.count := by
    have := h.depLt y vy hyl (by rw [hry.1]; exact hy)
    omega
  constructor
  · rw [hlen, h.len]
  · intro i v hv
    rw [hget] at hv
    split_ifs at hv with h1 h2
    · subst h1
      have := h.wf i vy hy
      simp only [Option.some.injEq] at hv
      subst hv
      simpa [hlen] using this
    · subst h2
      have := h.wf i vx hx
      simp only [Option.some.injEq] at hv
      subst hv
      simp only [hlen]
      exact ⟨this.1, this.2.1, hyl⟩
    · simpa [hlen] using h.wf i v hv
  · intro i v hv hp
    rw [hget] at hv
    split_ifs at hv with h1 h2
    · subst h1
      simp [hry.1, hyx, hry.2]
    · subst h2
      simp only [Option.some.injEq] at hv
      subst hv
      exact absurd hp hyx
    · have := h.rootCase i v hv hp
      simp [this.1, h2, this.2]
  · intro i v hv hp
    rw [hget] at hv
    split_ifs at hv with h1 h2
    · subst h1
      simp only [Option.some.injEq] at hv
      subst hv
      exact absurd hyr hp
    · subst h2
      simp only [Option.some.injEq] at hv
      subst hv
      simp [hry.1, hyx, hry.2, hrx.1, hrx.2]
    · have := h.stepCase i v hv hp
      simp only [this.1]
      split_ifs <;> simp [this.2]
  · intro i hi
    rw [hlen] at hi
    by_cases hc : rt i = x
    · refine ⟨{ vy with count := vy.count + vx.count }, ?_, ?_⟩
      · simp only [hc, if_true]
        rw [hget, if_pos rfl]
      · simpa [hc] using hyr
    · simp only [if_neg hc]
      obtain ⟨r, hr, hp⟩ := h.rtRoot i hi
      by_cases hcy2 : rt i = y
      · refine ⟨{ vy with count := vy.count + vx.count }, ?_, ?_⟩
        · rw [hget, if_pos hcy2]
        · rw [hcy2]
          simpa using hyr
      · exact ⟨r, by rw [hget, if_neg hcy2, if_neg hc]; exact hr, hp⟩
  · intro i r hi hr
    rw [hlen] at hi
    by_cases hc : rt i = x
    · simp only [hc, if_true] at hr ⊢
      rw [hget, if_pos rfl] at hr
      simp only [Option.some.injEq] at hr
      subst hr
      have := h.depLt i vx hi (by rw [hc]; exact hx)
      simp only
      omega
    · simp only [if_neg hc] at hr ⊢
      by_cases hcy2 : rt i = y
      · rw [hget, if_pos hcy2] at hr
        simp only [Option.some.injEq] at hr
        subst hr
        have := h.depLt i vy hi (by rw [hcy2]; exact hy)
        simp only
        omega
      · rw [hget, if_neg hcy2, if_neg hc] at hr
        exact h.depLt i r hi hr
  · intro r v hv hp
    rw [hlen]
    rw [hget] at hv
    split_ifs at hv with h1 h2
    · subst h1
      simp only [Option.some.injEq] at hv
      subst hv
      have e1 := h.cnt r vy hy hyr
      have e2 := h.cnt x vx hx hxr
      have hset : (Finset.range vs.length).filter (fun i => (if rt i = x then r else rt i) = r)
          = (Finset.range vs.length).filter (fun i => rt i = r)
            ∪ (Finset.range vs.length).filter (fun i => rt i = x) := by
        ext j
        simp only [Finset.mem_filter, Finset.mem_union, Finset.mem_range]
        by_cases hj : rt j = x
        · simp only [hj, if_true, and_true, true_and]
          tauto
        · simp [hj]
      have hdis : Disjoint ((Finset.range vs.length).filter (fun i => rt i = r))
          ((Finset.range vs.length).filter (fun i => rt i = x)) := by
        rw [Finset.disjoint_filter]
        intro j _ h3 h4
        exact hxy (h4.symm.trans h3)
      rw [hset, Finset.card_union_of_disjoint hdis]
      simp only
      omega
    · subst h2
      simp only [Option.some.injEq] at hv
      subst hv
      exact absurd hp hyx
    · have e1 := h.cnt r v hv hp
      rw [e1]
      congr 1
      ext j
      simp only [Finset.mem_filter, Finset.mem_range]
      by_cases hj : rt j = x
      · simp only [hj, if_true]
        constructor
        · rintro ⟨_, e⟩
          exact absurd e.symm h2
        · rintro ⟨_, e⟩
          exact absurd e.symm h1
      · simp [hj]

/-! ### One step of the union pass -/

theorem idxAdj_cons {id2idx : IntMap Nat} {e : Edge} {done : List Edge} {i j : Nat} :
    idxAdj id2idx (e :: done) i j ↔
      (id2idx e.v1 = some i ∧ id2idx e.v2 = some j) ∨ idxAdj id2idx done i j := by
  simp [idxAdj]

theorem eqvGen_cons {id2idx : IntMap Nat} (e : Edge) {done : List Edge} {i j : Nat}
    (h : Relation.EqvGen (idxAdj id2idx done) i j) :
    Relation.EqvGen (idxAdj id2idx (e :: done)) i j :=
  Relation.EqvGen.mono (fun _ _ hr => idxAdj_cons.mpr (Or.inr hr)) h

/-- An edge whose endpoints already have the same root leaves the state as it is. -/
theorem PassInv.skip {unique_id : List Int} {id2idx : IntMap Nat} {done : List Edge}
    {vs : List Vertex} {c : Nat} {rt dep : Nat → Nat}
    (h : PassInv unique_id id2idx done vs c rt dep) (e : Edge) {a b : Nat}
    (ha : id2idx e.v1 = some a) (hb : id2idx e.v2 = some b) (hab : rt a = rt b) :
    PassInv unique_id id2idx (e :: done) vs c rt dep := by
  refine ⟨h.forest, ?_, ?_, h.counter⟩
  · intro i j hij
    rcases idxAdj_cons.mp hij with ⟨h1, h2⟩ | h3
    · rw [ha] at h1
      rw [hb] at h2
      simp only [Option.some.injEq] at h1 h2
      subst h1 h2
      exact hab
    · exact h.sound i j h3
  · intro i hi
    exact eqvGen_cons e (h.complete i hi)

/-- An edge whose endpoints have different roots `x` and `y`: after `x` is hung
under `y` the invariant holds with one more merge counted. -/
theorem PassInv.linkEdge {unique_id : List Int} {id2idx : IntMap Nat} {done : List Edge}
    {vs : List Vertex} {c : Nat} {rt dep : Nat → Nat}
    (h : PassInv unique_id id2idx done vs c rt dep) (e : Edge) {a b : Nat}
    (ha : id2idx e.v1 = some a) (hb : id2idx e.v2 = some b)
    (hal : a < vs.length) (hbl : b < vs.length) {x y : Nat}
    (hxy : (x = rt a ∧ y = rt b) ∨ (x = rt b ∧ y = rt a)) (hne : x ≠ y)
    {vx vy : Vertex} (hx : vs[x]? = some vx) (hy : vs[y]? = some vy)
    (vs2 : List Vertex) (hlen : vs2.length = vs.length)
    (hget : ∀ i : Nat, vs2[i]? =
      if i = y then some { vy with count := vy.count + vx.count }
      else if i = x then some { vx with parent := y } else vs[i]?) :
    PassInv unique_id id2idx (e :: done) vs2 (c + 1)
      (fun i => if rt i = x then y else rt i)
      (fun i => if rt i = x then dep i + 1 else dep i) := by
  have hF := h.forest
  have hxl : x < vs.length := (List.getElem?_eq_some.mp hx).1
  have hrtx : rt x = x := by
    rcases hxy with ⟨e1, _⟩ | ⟨e1, _⟩ <;> rw [e1]
    · exact hF.rt_idem hal
    · exact hF.rt_idem hbl
  have hrty : rt y = y := by
    rcases hxy with ⟨_, e1⟩ | ⟨_, e1⟩ <;> rw [e1]
    · exact hF.rt_idem hbl
    · exact hF.rt_idem hal
  have hxr : vx.parent = x := by
    obtain ⟨r, hr, hp⟩ := hF.rtRoot x hxl
    rw [hrtx, hx] at hr
    simp only [Option.some.injEq] at hr
    subst hr
    rw [hrtx] at hp
    exact hp
  have hyr : vy.parent = y := by
    obtain ⟨r, hr, hp⟩ := hF.rtRoot y (List.getElem?_eq_some.mp hy).1
    rw [hrty, hy] at hr
    simp only [Option.some.injEq] at hr
    subst hr
    rw [hrty] at hp
    exact hp
  have hyx : y ≠ x := fun e1 => hne e1.symm
  have hedge : Relation.EqvGen (idxAdj id2idx (e :: done)) a b :=
    Relation.EqvGen.rel _ _ (idxAdj_cons.mpr (Or.inl ⟨ha, hb⟩))
  have hca := eqvGen_cons e (h.complete a hal)
  have hcb := eqvGen_cons e (h.complete b hbl)
  have hxyc : Relation.EqvGen (idxAdj id2idx (e :: done)) x y := by
    rcases hxy with ⟨e1, e2⟩ | ⟨e1, e2⟩ <;> rw [e1, e2]
    · exact ((hca.symm _ _).trans _ _ _ hedge).trans _ _ _ hcb
    · exact ((hcb.symm _ _).trans _ _ _ (hedge.symm _ _)).trans _ _ _ hca
  refine ⟨hF.link hx hy hxr hyr hne vs2 hlen hget, ?_, ?_, ?_⟩
  · intro i j hij
    rcases idxAdj_cons.mp hij with ⟨h1, h2⟩ | h3
    · rw [ha] at h1
      rw [hb] at h2
      simp only [Option.some.injEq] at h1 h2
      subst h1 h2
      rcases hxy with ⟨e1, e2⟩ | ⟨e1, e2⟩
      · simp only [← e1, ← e2, if_true, if_neg hyx]
      · simp only [← e1, ← e2, if_true, if_neg hyx]
    · simp only [h.sound i j h3]
  · intro i hi
    rw [hlen] at hi
    have hci := eqvGen_cons e (h.complete i hi)
    by_cases hc : rt i = x
    · simp only [hc, if_true]
      rw [hc] at hci
      exact hci.trans _ _ _ hxyc
    · simp only [if_neg hc]
      exact hci
  · have hcnt := h.counter
    rw [hlen]
    have hset : (Finset.range vs.length).filter (fun i => (if rt i = x then y else rt i) = i)
        = ((Finset.range vs.length).filter (fun i => rt i = i)).erase x := by
      ext j
      simp only [Finset.mem_filter, Finset.mem_erase, Finset.mem_range]
      by_cases hj : rt j = x
      · simp only [hj, if_true]
        constructor
        · rintro ⟨_, e1⟩
          subst e1
          exact absurd (hj.symm.trans hrty) hne
        · rintro ⟨h1, _, h2⟩
          exact absurd h2.symm h1
      · simp only [if_neg hj]
        constructor
        · rintro ⟨h1, h2⟩
          exact ⟨fun e1 => hj (by rw [h2, e1]), h1, h2⟩
        · rintro ⟨_, h1, h2⟩
          exact ⟨h1, h2⟩
    have hmem : x ∈ (Finset.range vs.length).filter (fun i => rt i = i) := by
      simp only [Finset.mem_filter, Finset.mem_range]
      exact ⟨hxl, hrtx⟩
    rw [hset, Finset.card_erase_of_mem hmem]
    have hpos : 0 < ((Finset.range vs.length).filter (fun i => rt i = i)).card :=
      Finset.card_pos.mpr ⟨x, hmem⟩
    omega

theorem link_getElem? (vs : List Vertex) {x y : Nat} {vx vy : Vertex}
    (hx : vs[x]? = some vx) (hy : vs[y]? = some vy) (i : Nat) :
    ((vs.set x { vx with parent := y }).set y { vy with count := vy.count + vx.count })[i]? =
      if i = y then some { vy with count := vy.count + vx.count }
      else if i = x then some { vx with parent := y } else vs[i]? := by
  have hxl : x < vs.length := (List.getElem?_eq_some.mp hx).1
  have hyl : y < vs.length := (List.getElem?_eq_some.mp hy).1
  rw [List.getElem?_set, List.getElem?_set, List.length_set]
  by_cases h1 : i = y
  · subst h1
    simp [hyl]
  · have h1b : ¬ y = i := fun e => h1 e.symm
    rw [if_neg h1, if_neg h1b]
    by_cases h2 : i = x
    · subst h2
      simp [hxl]
    · have h2b : ¬ x = i := fun e => h2 e.symm
      rw [if_neg h2, if_neg h2b]

/-- The body of the edge loop succeeds on every edge between known labels and
keeps the invariant of the union pass. -/
theorem unionStep_inv {unique_id : List Int} {id2idx : IntMap Nat} {done : List Edge}
    {vs : List Vertex} {c : Nat} {rt dep : Nat → Nat}
    (hT : TableOk unique_id id2idx)
    (h : PassInv unique_id id2idx done vs c rt dep) (e : Edge)
    (h1 : e.v1 ∈ unique_id) (h2 : e.v2 ∈ unique_id) :
    ∃ vs2 c2 rt2 dep2, unionStep id2idx (vs, c) e = some (vs2, c2) ∧
      PassInv unique_id id2idx (e :: done) vs2 c2 rt2 dep2 := by
  have hF := h.forest
  obtain ⟨a, hUa⟩ := List.mem_iff_getElem?.mp h1
  obtain ⟨b, hUb⟩ := List.mem_iff_getElem?.mp h2
  have ha : id2idx e.v1 = some a := (hT _ _).mpr hUa
  have hb : id2idx e.v2 = some b := (hT _ _).mpr hUb
  have hal : a < vs.length := by
    rw [hF.len]
    exact (List.getElem?_eq_some.mp hUa).1
  have hbl : b < vs.length := by
    rw [hF.len]
    exact (List.getElem?_eq_some.mp hUb).1
  have hfa := hF.find_eq hal
  have hfb := hF.find_eq hbl
  obtain ⟨pa, hra, -⟩ := hF.rtRoot a hal
  obtain ⟨pb, hrb, -⟩ := hF.rtRoot b hbl
  by_cases hab : rt a = rt b
  · refine ⟨vs, c, rt, dep, ?_, h.skip e ha hb hab⟩
    simp [unionStep, ha, hb, hfa, hfb, hab]
  · have hba : ¬ rt b = rt a := fun e1 => hab e1.symm
    by_cases hcmp : pa.count > pb.count
    · refine ⟨_, c + 1, _, _, ?_, h.linkEdge e ha hb hal hbl (Or.inr ⟨rfl, rfl⟩)
        (fun e1 => hab e1.symm) hrb hra _ (by simp) (link_getElem? vs hrb hra)⟩
      simp only [unionStep, ha, hb, hfa, hfb, hra, hrb, Option.bind_eq_bind, Option.some_bind,
        bne_iff_ne, ne_eq, hab, not_false_eq_true, if_true, if_pos hcmp, Option.pure_def]
      rw [List.getElem?_set_ne hba, hra, List.getElem?_set_self (hF.rt_lt hbl)]
      rfl
    · refine ⟨_, c + 1, _, _, ?_, h.linkEdge e ha hb hal hbl (Or.inl ⟨rfl, rfl⟩)
        hab hra hrb _ (by simp) (link_getElem? vs hra hrb)⟩
      simp only [unionStep, ha, hb, hfa, hfb, hra, hrb, Option.bind_eq_bind, Option.some_bind,
        bne_iff_ne, ne_eq, hab, not_false_eq_true, if_true, if_neg hcmp, Option.pure_def]
      rw [List.getElem?_set_ne hab, hrb, List.getElem?_set_self (hF.rt_lt hal)]
      rfl

/-! ### The union pass -/

theorem PassInv.start (unique_id : List Int) (id2idx : IntMap Nat) :
    PassInv unique_id id2idx [] (initVertices unique_id 0) 0 (fun i => i) (fun _ => 0) := by
  refine ⟨Forest.init unique_id, ?_, ?_, ?_⟩
  · rintro i j ⟨e, he, _⟩
    simp at he
  · intro i _
    exact Relation.EqvGen.refl i
  · simp

theorem PassInv.congr {unique_id : List Int} {id2idx : IntMap Nat} {done done2 : List Edge}
    {vs : List Vertex} {c : Nat} {rt dep : Nat → Nat}
    (h : PassInv unique_id id2idx done vs c rt dep) (hmem : ∀ e, e ∈ done ↔ e ∈ done2) :
    PassInv unique_id id2idx done2 vs c rt dep := by
  have hrel : ∀ i j, idxAdj id2idx done i j ↔ idxAdj id2idx done2 i j := by
    intro i j
    constructor
    · rintro ⟨e, he, h1⟩
      exact ⟨e, (hmem e).mp he, h1⟩
    · rintro ⟨e, he, h1⟩
      exact ⟨e, (hmem e).mpr he, h1⟩
  refine ⟨h.forest, ?_, ?_, h.counter⟩
  · intro i j hij
    exact h.sound i j ((hrel i j).mpr hij)
  · intro i hi
    exact Relation.EqvGen.mono (fun a b hr => (hrel a b).mp hr) (h.complete i hi)

theorem unionLoop_inv {unique_id : List Int} {id2idx : IntMap Nat}
    (hT : TableOk unique_id id2idx) (edges : List Edge)
    (hE : ∀ e ∈ edges, e.v1 ∈ unique_id ∧ e.v2 ∈ unique_id)
    {done : List Edge} {vs : List Vertex} {c : Nat} {rt dep : Nat → Nat}
    (h : PassInv unique_id id2idx done vs c rt dep) :
    ∃ vs2 c2 rt2 dep2, unionLoop id2idx edges (vs, c) = some (vs2, c2) ∧
      PassInv unique_id id2idx (edges.reverse ++ done) vs2 c2 rt2 dep2 := by
  induction edges generalizing done vs c rt dep with
  | nil => exact ⟨vs, c, rt, dep, rfl, by simpa using h⟩
  | cons e es ih =>
    obtain ⟨vs1, c1, rt1, dep1, hstep, hinv⟩ :=
      unionStep_inv hT h e (hE e (List.mem_cons_self _ _)).1 (hE e (List.mem_cons_self _ _)).2
    obtain ⟨vs2, c2, rt2, dep2, hloop, hinv2⟩ :=
      ih (fun e1 he1 => hE e1 (List.mem_cons_of_mem _ he1)) hinv
    refine ⟨vs2, c2, rt2, dep2, ?_, ?_⟩
    · simp only [unionLoop, hstep, Option.some_bind]
      exact hloop
    · simpa using hinv2

/-- The union pass returns on every edge list whose endpoints are labels, in a
state that satisfies the invariant for the whole edge list. -/
theorem unionPass_inv (unique_id : List Int) (hnd : unique_id.Nodup) (edges : List Edge)
    (hE : ∀ e ∈ edges, e.v1 ∈ unique_id ∧ e.v2 ∈ unique_id) :
    ∃ vs c rt dep, unionPass unique_id edges = some (vs, c) ∧
      PassInv unique_id (buildId2idx unique_id 0 IntMap.empty) edges vs c rt dep := by
  obtain ⟨vs, c, rt, dep, h1, h2⟩ :=
    unionLoop_inv (tableOk_build unique_id hnd) edges hE (PassInv.start unique_id _)
  exact ⟨vs, c, rt, dep, h1, h2.congr (by simp)⟩

/-! ### Counting roots -/

theorem rootsBelow_succ (rt : Nat → Nat) (m : Nat) :
    rootsBelow rt (m + 1) = rootsBelow rt m + (if rt m = m then 1 else 0) := by
  unfold rootsBelow
  rw [Finset.range_succ, Finset.filter_insert]
  split_ifs with h
  · rw [Finset.card_insert_of_not_mem]
    simp
  · rfl

theorem rootsBelow_mono (rt : Nat → Nat) {m k : Nat} (h : m ≤ k) :
    rootsBelow rt m ≤ rootsBelow rt k :=
  Finset.card_le_card (Finset.filter_subset_filter _ (Finset.range_subset.mpr h))

theorem rootsBelow_le (rt : Nat → Nat) (m : Nat) : rootsBelow rt m ≤ m := by
  simpa [rootsBelow] using Finset.card_filter_le (Finset.range m) (fun i => rt i = i)

theorem rootsBelow_lt (rt : Nat → Nat) {r n : Nat} (hr : rt r = r) (hrn : r < n) :
    rootsBelow rt r < rootsBelow rt n := by
  have h1 := rootsBelow_succ rt r
  rw [if_pos hr] at h1
  have h2 : rootsBelow rt (r + 1) ≤ rootsBelow rt n := rootsBelow_mono rt hrn
  omega

theorem rootsBelow_inj (rt : Nat → Nat) {r s : Nat} (hr : rt r = r) (hs : rt s = s)
    (h : rootsBelow rt r = rootsBelow rt s) : r = s := by
  rcases Nat.lt_trichotomy r s with h1 | h1 | h1
  · have := rootsBelow_lt rt hr h1
    omega
  · exact h1
  · have := rootsBelow_lt rt hs h1
    omega

theorem rootsBelow_surj (rt : Nat → Nat) (n k : Nat) (hk : k < rootsBelow rt n) :
    ∃ r, r < n ∧ rt r = r ∧ rootsBelow rt r = k := by
  induction n with
  | zero => simp [rootsBelow] at hk
  | succ n ih =>
    rw [rootsBelow_succ] at hk
    by_cases hlt : k < rootsBelow rt n
    · obtain ⟨r, h1, h2, h3⟩ := ih hlt
      exact ⟨r, Nat.lt_succ_of_lt h1, h2, h3⟩
    · by_cases hroot : rt n = n
      · rw [if_pos hroot] at hk
        exact ⟨n, Nat.lt_succ_self n, hroot, by omega⟩
      · rw [if_neg hroot] at hk
        omega

theorem nodup_getElem?_inj {l : List Int} (hnd : l.Nodup) {i j : Nat} {a : Int}
    (h1 : l[i]? = some a) (h2 : l[j]? = some a) : i = j := by
  obtain ⟨hi, e1⟩ := List.getElem?_eq_some.mp h1
  obtain ⟨hj, e2⟩ := List.getElem?_eq_some.mp h2
  exact (hnd.getElem_inj_iff).mp (e1.trans e2.symm)

theorem Forest.root_iff {unique_id : List Int} {vs : List Vertex} {rt dep : Nat → Nat}
    (h : Forest unique_id vs rt dep) {i : Nat} {v : Vertex} (hv : vs[i]? = some v) :
    rt i = i ↔ v.parent = v.idx := by
  rw [(h.wf i v hv).1]
  constructor
  · intro hr
    obtain ⟨r, h1, h2⟩ := h.rtRoot i (List.getElem?_eq_some.mp hv).1
    rw [hr, hv] at h1
    simp only [Option.some.injEq] at h1
    subst h1
    rw [hr] at h2
    exact h2
  · intro hp
    exact (h.rootCase i v hv hp).1

theorem Forest.numRoots_take {unique_id : List Int} {vs : List Vertex} {rt dep : Nat → Nat}
    (h : Forest unique_id vs rt dep) (m : Nat) (hm : m ≤ vs.length) :
    ((vs.take m).filter (fun v => v.parent == v.idx)).length = rootsBelow rt m := by
  induction m with
  | zero => simp [rootsBelow]
  | succ m ih =>
    have hv : vs[m]? = some vs[m] := List.getElem?_eq_getElem (by omega)
    rw [List.take_succ, List.filter_append, List.length_append, ih (by omega),
      rootsBelow_succ, hv]
    congr 1
    by_cases hr : rt m = m
    · have := (h.root_iff hv).mp hr
      simp [hr, this]
    · have hne : ¬ vs[m].parent = vs[m].idx := fun e => hr ((h.root_iff hv).mpr e)
      simp [hr, hne]

theorem Forest.numRoots_eq {unique_id : List Int} {vs : List Vertex} {rt dep : Nat → Nat}
    (h : Forest unique_id vs rt dep) : numRoots vs = rootsBelow rt vs.length := by
  have := h.numRoots_take vs.length (Nat.le_refl _)
  rwa [List.take_length] at this

/-! ### The relabel pass -/

theorem drop_cons_inv {vs : List Vertex} {m : Nat} {v : Vertex} {rest : List Vertex}
    (h : vs.drop m = v :: rest) : m < vs.length ∧ vs[m]? = some v ∧ vs.drop (m + 1) = rest := by
  have hm : m < vs.length := by
    by_contra hc
    rw [List.drop_eq_nil_of_le (by omega)] at h
    exact List.noConfusion h
  rw [List.drop_eq_getElem_cons hm] at h
  injection h with h1 h2
  exact ⟨hm, by rw [List.getElem?_eq_getElem hm, h1], h2⟩

/-- First relabel loop: the roots receive the ids `0, 1, 2, ...` in index order. -/
theorem relabelRoot_loop {unique_id : List Int} {vs : List Vertex} {rt dep : Nat → Nat}
    (hF : Forest unique_id vs rt dep) (hnd : unique_id.Nodup)
    (rest : List Vertex) (m : Nat) (st : IntMap Nat × Nat)
    (hdrop : vs.drop m = rest) (hm : m ≤ vs.length) (hk : st.2 = rootsBelow rt m)
    (hmap : ∀ i, i < m → rt i = i → ∀ a, unique_id[i]? = some a →
      st.1 a = some (rootsBelow rt i)) :
    ∃ id2new, loopM (relabelRootStep vs) rest st = some (id2new, rootsBelow rt vs.length) ∧
      ∀ i, i < vs.length → rt i = i → ∀ a, unique_id[i]? = some a →
        id2new a = some (rootsBelow rt i) := by
  induction rest generalizing m st with
  | nil =>
    have hlen : m = vs.length := by
      have := List.drop_eq_nil_iff.mp hdrop
      omega
    subst hlen
    refine ⟨st.1, ?_, hmap⟩
    simp only [loopM]
    rw [← hk]
  | cons v rest ih =>
    obtain ⟨hml, hv, hrest⟩ := drop_cons_inv hdrop
    have hwf := hF.wf m v hv
    have hfind : find v.idx vs = some (rt m) := by
      rw [hwf.1]
      exact hF.find_eq hml
    have hsucc := rootsBelow_succ rt m
    by_cases hroot : rt m = m
    · rw [if_pos hroot] at hsucc
      obtain ⟨id2new, h1, h2⟩ := ih (m + 1) (st.1.insert v.id st.2, st.2 + 1) hrest hml
        (by simp only [hk, hsucc]) (by
          intro i hi hri a ha
          by_cases him : i = m
          · subst him
            rw [hwf.2.1] at ha
            simp only [Option.some.injEq] at ha
            subst ha
            simp [IntMap.insert, hk]
          · have hne : a ≠ v.id := by
              intro e1
              subst e1
              exact him (nodup_getElem?_inj hnd ha hwf.2.1)
            simp only [IntMap.insert, if_neg hne]
            exact hmap i (by omega) hri a ha)
      refine ⟨id2new, ?_, h2⟩
      simp only [loopM, relabelRootStep, hF.find_eq hml, Option.bind_eq_bind, Option.some_bind, hwf.1,
        hroot, beq_self_eq_true, if_true, Option.pure_def]
      exact h1
    · rw [if_neg hroot] at hsucc
      obtain ⟨id2new, h1, h2⟩ := ih (m + 1) st hrest hml
        (by simp only [hk, hsucc, Nat.add_zero]) (by
          intro i hi hri a ha
          by_cases him : i = m
          · subst him
            exact absurd hri hroot
          · exact hmap i (by omega) hri a ha)
      refine ⟨id2new, ?_, h2⟩
      have hb : (rt m == m) = false := by simpa using hroot
      simp only [loopM, relabelRootStep, hF.find_eq hml, Option.bind_eq_bind, Option.some_bind, hwf.1,
        hb, Bool.false_eq_true, if_false, Option.pure_def]
      exact h1

/-- Second relabel loop: every vertex receives the id of its root. -/
theorem relabelAll_loop {unique_id : List Int} {vs : List Vertex} {rt dep : Nat → Nat}
    (hF : Forest unique_id vs rt dep) (hnd : unique_id.Nodup)
    (rest : List Vertex) (m : Nat) (id2new : IntMap Nat)
    (hdrop : vs.drop m = rest) (hm : m ≤ vs.length)
    (hroots : ∀ i, i < vs.length → rt i = i → ∀ a, unique_id[i]? = some a →
      id2new a = some (rootsBelow rt i))
    (hmap : ∀ i, i < m → ∀ a, unique_id[i]? = some a →
      id2new a = some (rootsBelow rt (rt i))) :
    ∃ fin, loopM (relabelAllStep vs) rest id2new = some fin ∧
      ∀ i, i < vs.length → ∀ a, unique_id[i]? = some a →
        fin a = some (rootsBelow rt (rt i)) := by
  induction rest generalizing m id2new with
  | nil =>
    have hlen : m = vs.length := by
      have := List.drop_eq_nil_iff.mp hdrop
      omega
    subst hlen
    exact ⟨id2new, rfl, hmap⟩
  | cons v rest ih =>
    obtain ⟨hml, hv, hrest⟩ := drop_cons_inv hdrop
    have hwf := hF.wf m v hv
    have hfind : find v.idx vs = some (rt m) := by
      rw [hwf.1]
      exact hF.find_eq hml
    obtain ⟨pv, hpv, -⟩ := hF.rtRoot m hml
    have hpid := (hF.wf (rt m) pv hpv).2.1
    have hnew : id2new pv.id = some (rootsBelow rt (rt m)) :=
      hroots (rt m) (hF.rt_lt hml) (hF.rt_idem hml) pv.id hpid
    obtain ⟨fin, h1, h2⟩ := ih (m + 1) (id2new.insert v.id (rootsBelow rt (rt m))) hrest hml
      (by
        intro i hi hri a ha
        by_cases hav : a = v.id
        · subst hav
          have him : i = m := nodup_getElem?_inj hnd ha hwf.2.1
          subst him
          simp [IntMap.insert, hri]
        · simp only [IntMap.insert, if_neg hav]
          exact hroots i hi hri a ha)
      (by
        intro i hi a ha
        by_cases hav : a = v.id
        · subst hav
          have him : i = m := nodup_getElem?_inj hnd ha hwf.2.1
          subst him
          simp [IntMap.insert]
        · simp only [IntMap.insert, if_neg hav]
          have him : i ≠ m := by
            intro e1
            subst e1
            rw [hwf.2.1] at ha
            simp only [Option.some.injEq] at ha
            exact hav ha.symm
          exact hmap i (by omega) a ha)
    refine ⟨fin, ?_, h2⟩
    simp only [loopM, relabelAllStep, hfind, hF.find_eq hml, hpv, hnew, Option.bind_eq_bind, Option.some_bind,
      Option.pure_def]
    exact h1

/-- The relabel pass returns on every forest; it hands out as many ids as there
are roots and sends every label to the rank of its root among the roots. -/
theorem relabelPass_spec {unique_id : List Int} {vs : List Vertex} {rt dep : Nat → Nat}
    (hF : Forest unique_id vs rt dep) (hnd : unique_id.Nodup) :
    ∃ id2new, relabelPass vs = some (id2new, rootsBelow rt vs.length) ∧
      ∀ i, i < vs.length → ∀ a, unique_id[i]? = some a →
        id2new a = some (rootsBelow rt (rt i)) := by
  obtain ⟨m1, h1, h2⟩ := relabelRoot_loop hF hnd vs 0 (IntMap.empty, 0) rfl (Nat.zero_le _)
    (by simp [rootsBelow]) (by intro i hi; omega)
  obtain ⟨m2, h3, h4⟩ := relabelAll_loop hF hnd vs 0 m1 rfl (Nat.zero_le _) h2
    (by intro i hi; omega)
  refine ⟨m2, ?_, h4⟩
  simp only [relabelPass, h1, h3, Option.bind_eq_bind, Option.some_bind, Option.pure_def]

/-! ### Connectivity of labels and of vertex indices -/

theorem edgeRel_of_idxAdj {unique_id : List Int} {id2idx : IntMap Nat}
    (hT : TableOk unique_id id2idx) {edges : List Edge} {i j : Nat}
    (h : idxAdj id2idx edges i j) :
    ∃ (hi : i < unique_id.length) (hj : j < unique_id.length),
      edgeRel edges unique_id[i] unique_id[j] := by
  obtain ⟨e, he, h1, h2⟩ := h
  obtain ⟨hi, e1⟩ := List.getElem?_eq_some.mp ((hT _ _).mp h1)
  obtain ⟨hj, e2⟩ := List.getElem?_eq_some.mp ((hT _ _).mp h2)
  exact ⟨hi, hj, e, he, e1.symm, e2.symm⟩

/-- A path between vertex indices stays inside the vertex range and is a path
of the graph on `Fin n`. -/
theorem vertexPath_of_idxPath {unique_id : List Int} {id2idx : IntMap Nat}
    (hT : TableOk unique_id id2idx) {edges : List Edge} {x y : Nat}
    (h : Relation.EqvGen (idxAdj id2idx edges) x y) :
    (x < unique_id.length ↔ y < unique_id.length) ∧
      ∀ (hx : x < unique_id.length) (hy : y < unique_id.length),
        Relation.EqvGen (vertexAdj unique_id edges) ⟨x, hx⟩ ⟨y, hy⟩ := by
  induction h with
  | rel x y hxy =>
    obtain ⟨hi, hj, hr⟩ := edgeRel_of_idxAdj hT hxy
    exact ⟨⟨fun _ => hj, fun _ => hi⟩, fun _ _ => Relation.EqvGen.rel _ _ hr⟩
  | refl x => exact ⟨Iff.rfl, fun _ _ => Relation.EqvGen.refl _⟩
  | symm x y _ ih => exact ⟨ih.1.symm, fun hx hy => (ih.2 hy hx).symm _ _⟩
  | trans x z y _ _ ih1 ih2 =>
    exact ⟨ih1.1.trans ih2.1, fun hx hy =>
      (ih1.2 hx (ih1.1.mp hx)).trans _ _ _ (ih2.2 (ih1.1.mp hx) hy)⟩

theorem connected_of_vertexPath {unique_id : List Int} {edges : List Edge}
    {x y : Fin unique_id.length} (h : Relation.EqvGen (vertexAdj unique_id edges) x y) :
    Connected edges (unique_id.get x) (unique_id.get y) := by
  induction h with
  | rel x y hxy => exact Relation.EqvGen.rel _ _ hxy
  | refl x => exact Relation.EqvGen.refl _
  | symm x y _ ih => exact ih.symm _ _
  | trans x z y _ _ ih1 ih2 => exact ih1.trans _ _ _ ih2

/-- Labels connected by a path of edges have the same root. -/
theorem sameRoot_of_connected {unique_id : List Int} {id2idx : IntMap Nat}
    (hT : TableOk unique_id id2idx) {edges : List Edge}
    (hE : ∀ e ∈ edges, e.v1 ∈ unique_id ∧ e.v2 ∈ unique_id) {rt : Nat → Nat}
    (hsound : ∀ i j, idxAdj id2idx edges i j → rt i = rt j) {a b : Int}
    (h : Connected edges a b) : (id2idx a).map rt = (id2idx b).map rt := by
  induction h with
  | rel x y hxy =>
    obtain ⟨e, he, h1, h2⟩ := hxy
    obtain ⟨i, hi⟩ := List.mem_iff_getElem?.mp (hE e he).1
    obtain ⟨j, hj⟩ := List.mem_iff_getElem?.mp (hE e he).2
    have e1 : id2idx e.v1 = some i := (hT _ _).mpr hi
    have e2 : id2idx e.v2 = some j := (hT _ _).mpr hj
    have := hsound i j ⟨e, he, e1, e2⟩
    rw [← h1, ← h2, e1, e2]
    simp [this]
  | refl x => rfl
  | symm x y _ ih => exact ih.symm
  | trans x z y _ _ ih1 ih2 => exact ih1.trans ih2

/-! ### Union pass followed by relabel pass -/

/-- On distinct labels and edges between them, the union pass and the relabel
pass both return, and their results satisfy `GroupSpec`. -/
theorem groupLabels_spec (unique_id : List Int) (edges : List Edge)
    (hnd : unique_id.Nodup)
    (hE : ∀ e ∈ edges, e.v1 ∈ unique_id ∧ e.v2 ∈ unique_id) :
    ∃ id2new R vs c, unionPass unique_id edges = some (vs, c) ∧
      relabelPass vs = some (id2new, R) ∧
      groupLabels unique_id edges = some (id2new, R, vs, c) ∧
      GroupSpec unique_id edges id2new R vs c := by
  obtain ⟨vs, c, rt, dep, hU, hP⟩ := unionPass_inv unique_id hnd edges hE
  have hF := hP.forest
  have hT := tableOk_build unique_id hnd
  obtain ⟨id2new, hR, hid⟩ := relabelPass_spec hF hnd
  have hlen := hF.len
  -- every label sits at an index, and its id is the rank of its root
  have hlab : ∀ a ∈ unique_id, ∃ i, i < vs.length ∧ unique_id[i]? = some a ∧
      id2new a = some (rootsBelow rt (rt i)) := by
    intro a ha
    obtain ⟨i, hi⟩ := List.mem_iff_getElem?.mp ha
    have hil : i < vs.length := by
      rw [hlen]
      exact (List.getElem?_eq_some.mp hi).1
    exact ⟨i, hil, hi, hid i hil a hi⟩
  refine ⟨id2new, rootsBelow rt vs.length, vs, c, hU, hR, ?_, ?_⟩
  · simp only [groupLabels, hU, hR, Option.bind_eq_bind, Option.some_bind, Option.pure_def]
  constructor
  · exact hlen
  · intro a ha
    obtain ⟨i, hil, _, h3⟩ := hlab a ha
    exact ⟨_, rootsBelow_lt rt (hF.rt_idem hil) (hF.rt_lt hil), h3⟩
  · intro k hk
    obtain ⟨r, h1, h2, h3⟩ := rootsBelow_surj rt vs.length k hk
    have hr : r < unique_id.length := by omega
    refine ⟨unique_id[r], List.getElem_mem _, ?_⟩
    rw [hid r h1 _ (List.getElem?_eq_getElem hr), h2, h3]
  · intro a ha b hb
    obtain ⟨i, hil, hi, hia⟩ := hlab a ha
    obtain ⟨j, hjl, hj, hjb⟩ := hlab b hb
    rw [hia, hjb]
    constructor
    · intro hEq
      simp only [Option.some.injEq] at hEq
      have hrt : rt i = rt j := rootsBelow_inj rt (hF.rt_idem hil) (hF.rt_idem hjl) hEq
      have hpath : Relation.EqvGen (idxAdj (buildId2idx unique_id 0 IntMap.empty) edges) i j := by
        have h1 := hP.complete i hil
        have h2 := hP.complete j hjl
        rw [hrt] at h1
        exact h1.trans _ _ _ (h2.symm _ _)
      have hi2 : i < unique_id.length := by omega
      have hj2 : j < unique_id.length := by omega
      have := connected_of_vertexPath ((vertexPath_of_idxPath hT hpath).2 hi2 hj2)
      have e1 : unique_id[i] = a := (List.getElem?_eq_some.mp hi).2
      have e2 : unique_id[j] = b := (List.getElem?_eq_some.mp hj).2
      simpa [e1, e2] using this
    · intro hconn
      have := sameRoot_of_connected hT hE hP.sound hconn
      rw [(hT _ _).mpr hi, (hT _ _).mpr hj] at this
      simp only [Option.map_some', Option.some.injEq] at this
      rw [this]
  · exact hF.numRoots_eq.symm
  · have := hP.counter
    unfold rootsBelow
    omega
  · -- the roots are in bijection with the classes of the adjacency relation
    have hmem : ∀ i : Fin unique_id.length,
        rt i ∈ (Finset.range vs.length).filter (fun k => rt k = k) := by
      intro i
      have hil : (i : Nat) < vs.length := by
        rw [hlen]
        exact i.2
      simp only [Finset.mem_filter, Finset.mem_range]
      exact ⟨hF.rt_lt hil, hF.rt_idem hil⟩
    have hresp : ∀ i j : Fin unique_id.length, vertexAdj unique_id edges i j →
        (⟨rt i, hmem i⟩ : {k // k ∈ (Finset.range vs.length).filter (fun k => rt k = k)})
          = ⟨rt j, hmem j⟩ := by
      intro i j hij
      obtain ⟨e, he, h1, h2⟩ := hij
      have e1 : buildId2idx unique_id 0 IntMap.empty e.v1 = some (i : Nat) :=
        (hT e.v1 i).mpr (by rw [h1]; exact List.getElem?_eq_getElem i.2)
      have e2 : buildId2idx unique_id 0 IntMap.empty e.v2 = some (j : Nat) :=
        (hT e.v2 j).mpr (by rw [h2]; exact List.getElem?_eq_getElem j.2)
      exact Subtype.ext (hP.sound i j ⟨e, he, e1, e2⟩)
    have hbij : Function.Bijective
        (Quot.lift (fun i : Fin unique_id.length =>
          (⟨rt i, hmem i⟩ : {k // k ∈ (Finset.range vs.length).filter (fun k => rt k = k)}))
          hresp) := by
      constructor
      · intro q1 q2
        induction q1 using Quot.ind with
        | mk i =>
          induction q2 using Quot.ind with
          | mk j =>
            intro hfe
            have hrt : rt i = rt j := congrArg Subtype.val hfe
            apply Quot.eqvGen_sound
            have h1 := hP.complete i (by rw [hlen]; exact i.2)
            have h2 := hP.complete j (by rw [hlen]; exact j.2)
            rw [hrt] at h1
            exact (vertexPath_of_idxPath hT (h1.trans _ _ _ (h2.symm _ _))).2 i.2 j.2
      · rintro ⟨r, hr⟩
        have hr2 := hr
        simp only [Finset.mem_filter, Finset.mem_range] at hr2
        exact ⟨Quot.mk _ ⟨r, by omega⟩, Subtype.ext hr2.2⟩
    rw [Nat.card_eq_of_bijective _ hbij, Nat.card_eq_fintype_card, Fintype.card_coe]
    rfl

theorem connected_congr {edges1 edges2 : List Edge} (hmem : ∀ e, e ∈ edges1 → e ∈ edges2)
    {a b : Int} (h : Connected edges1 a b) : Connected edges2 a b :=
  Relation.EqvGen.mono (fun _ _ ⟨e, he, h1⟩ => ⟨e, hmem e he, h1⟩) h

/-- A single class: when the labels are pairwise connected there is one id. -/
theorem GroupSpec.one_region {unique_id : List Int} {edges : List Edge} {id2new : IntMap Nat}
    {R : Nat} {vs : List Vertex} {c : Nat} (h : GroupSpec unique_id edges id2new R vs c)
    (hne : unique_id ≠ [])
    (hconn : ∀ a ∈ unique_id, ∀ b ∈ unique_id, Connected edges a b) : R = 1 := by
  obtain ⟨a, ha⟩ := List.exists_mem_of_ne_nil unique_id hne
  obtain ⟨k, hk, _⟩ := h.total a ha
  by_contra hR
  have h0 : 0 < R := by omega
  have h1 : 1 < R := by omega
  obtain ⟨x, hx, hx0⟩ := h.onto 0 h0
  obtain ⟨y, hy, hy1⟩ := h.onto 1 h1
  have := (h.sameId x hx y hy).mpr (hconn x hx y hy)
  rw [hx0, hy1] at this
  simp at this

/-- C1: for distinct labels and edges between them, after the union pass and
the relabel pass every label has a final id, and two labels have the same final
id if and only if they are connected by a path of edges; for the labels 5, 7, 9
with the edges (5,7) and (7,9) all three labels get the id 0. -/
theorem C1_same_id_iff_connected (unique_id : List Int) (edges : List Edge)
    (hnd : unique_id.Nodup)
    (hE : ∀ e ∈ edges, e.v1 ∈ unique_id ∧ e.v2 ∈ unique_id) :
    (∃ id2new R vs c, unionPass unique_id edges = some (vs, c) ∧
      relabelPass vs = some (id2new, R) ∧
      (∀ a ∈ unique_id, ∃ k, id2new a = some k) ∧
      ∀ a ∈ unique_id, ∀ b ∈ unique_id, (id2new a = id2new b ↔ Connected edges a b)) ∧
    (groupLabels [5, 7, 9]
        [{ v1 := 5, v2 := 7, weight := 0.1 }, { v1 := 7, v2 := 9, weight := 0.2 }]).map
      (fun r => (r.1 5, r.1 7, r.1 9)) = some (some 0, some 0, some 0) := by
  obtain ⟨id2new, R, vs, c, hU, hR, _, hS⟩ := groupLabels_spec unique_id edges hnd hE
  refine ⟨⟨id2new, R, vs, c, hU, hR, ?_, hS.sameId⟩, by decide⟩
  intro a ha
  obtain ⟨k, _, hk⟩ := hS.total a ha
  exact ⟨k, hk⟩

theorem C1_same_id_iff_connected_witness :
    (∃ id2new R vs c, unionPass [2, 4, 6] [{ v1 := 4, v2 := 6 }] = some (vs, c) ∧
      relabelPass vs = some (id2new, R) ∧
      (∀ a ∈ [2, 4, 6], ∃ k, id2new a = some k) ∧
      ∀ a ∈ [2, 4, 6], ∀ b ∈ [2, 4, 6],
        (id2new a = id2new b ↔ Connected [{ v1 := 4, v2 := 6 }] a b)) ∧
    (groupLabels [5, 7, 9]
        [{ v1 := 5, v2 := 7, weight := 0.1 }, { v1 := 7, v2 := 9, weight := 0.2 }]).map
      (fun r => (r.1 5, r.1 7, r.1 9)) = some (some 0, some 0, some 0) :=
  C1_same_id_iff_connected [2, 4, 6] [{ v1 := 4, v2 := 6 }] (by decide) (by decide)

/-- C6: the final ids assigned by the relabel pass form exactly the range
`0 .. R-1`, where `R` is the number of roots left after the union pass, and `R`
is at most the number of labels. -/
theorem C6_ids_form_range (unique_id : List Int) (edges : List Edge)
    (hnd : unique_id.Nodup)
    (hE : ∀ e ∈ edges, e.v1 ∈ unique_id ∧ e.v2 ∈ unique_id) :
    ∃ id2new R vs c, unionPass unique_id edges = some (vs, c) ∧
      relabelPass vs = some (id2new, R) ∧
      R = numRoots vs ∧ R ≤ unique_id.length ∧
      (∀ a ∈ unique_id, ∃ k, k < R ∧ id2new a = some k) ∧
      (∀ k, k < R → ∃ a ∈ unique_id, id2new a = some k) := by
  obtain ⟨id2new, R, vs, c, hU, hR, _, hS⟩ := groupLabels_spec unique_id edges hnd hE
  refine ⟨id2new, R, vs, c, hU, hR, hS.roots, ?_, hS.total, hS.onto⟩
  have := hS.counter
  omega

theorem C6_ids_form_range_witness :
    ∃ id2new R vs c, unionPass [2, 4, 6] [{ v1 := 4, v2 := 6 }] = some (vs, c) ∧
      relabelPass vs = some (id2new, R) ∧
      R = numRoots vs ∧ R ≤ [2, 4, (6 : Int)].length ∧
      (∀ a ∈ [2, 4, 6], ∃ k, k < R ∧ id2new a = some k) ∧
      (∀ k, k < R → ∃ a ∈ [2, 4, 6], id2new a = some k) :=
  C6_ids_form_range [2, 4, 6] [{ v1 := 4, v2 := 6 }] (by decide) (by decide)

/-- C8: after the union pass the merge counter equals the number of vertices
minus the number of connected components of the graph on the vertices (the
classes of the equivalence generated by the edges); when the labels are
pairwise connected it equals the number of vertices minus one. -/
theorem C8_merge_counter (unique_id : List Int) (edges : List Edge)
    (hnd : unique_id.Nodup)
    (hE : ∀ e ∈ edges, e.v1 ∈ unique_id ∧ e.v2 ∈ unique_id) :
    ∃ vs c, unionPass unique_id edges = some (vs, c) ∧ vs.length = unique_id.length ∧
      (c : Int) = (vs.length : Int) - (Nat.card (Quot (vertexAdj unique_id edges)) : Int) ∧
      ((∀ a ∈ unique_id, ∃ e ∈ edges, e.v1 = a ∨ e.v2 = a) → unique_id ≠ [] →
        (∀ a ∈ unique_id, ∀ b ∈ unique_id, Connected edges a b) →
        (c : Int) = (vs.length : Int) - 1) := by
  obtain ⟨id2new, R, vs, c, hU, hR, _, hS⟩ := groupLabels_spec unique_id edges hnd hE
  refine ⟨vs, c, hU, hS.lenEq, ?_, ?_⟩
  · have h1 := hS.counter
    have h2 := hS.components
    have h3 := hS.lenEq
    omega
  · intro _ hne hconn
    have h1 := hS.counter
    have h2 := hS.one_region hne hconn
    have h3 := hS.lenEq
    omega

theorem C8_merge_counter_witness :
    ∃ vs c, unionPass [2, 4, 6] [{ v1 := 4, v2 := 6 }, { v1 := 6, v2 := 2 }] = some (vs, c) ∧
      vs.length = [2, 4, (6 : Int)].length ∧
      (c : Int) = (vs.length : Int) - (Nat.card (Quot (vertexAdj [2, 4, 6]
        [{ v1 := 4, v2 := 6 }, { v1 := 6, v2 := 2 }])) : Int) ∧
      ((∀ a ∈ [2, 4, (6 : Int)], ∃ e ∈ [({ v1 := 4, v2 := 6 } : Edge), { v1 := 6, v2 := 2 }],
          e.v1 = a ∨ e.v2 = a) → [2, 4, (6 : Int)] ≠ [] →
        (∀ a ∈ [2, 4, (6 : Int)], ∀ b ∈ [2, 4, (6 : Int)],
          Connected [{ v1 := 4, v2 := 6 }, { v1 := 6, v2 := 2 }] a b) →
        (c : Int) = (vs.length : Int) - 1) :=
  C8_merge_counter [2, 4, 6] [{ v1 := 4, v2 := 6 }, { v1 := 6, v2 := 2 }] (by decide) (by decide)

/-- C9: two edge lists that are permutations of one another give the same
partition of the labels: two labels share an id under one order exactly when
they share an id under the other, and the ids of the second run are the ids of
the first run renamed by a bijection between the two id ranges. -/
theorem C9_permutation_same_partition (unique_id : List Int) (edges1 edges2 : List Edge)
    (hnd : unique_id.Nodup)
    (hE : ∀ e ∈ edges1, e.v1 ∈ unique_id ∧ e.v2 ∈ unique_id)
    (hperm : edges1.Perm edges2) :
    ∃ id1 R1 vs1 c1 id2 R2 vs2 c2,
      groupLabels unique_id edges1 = some (id1, R1, vs1, c1) ∧
      groupLabels unique_id edges2 = some (id2, R2, vs2, c2) ∧
      (∀ a ∈ unique_id, ∀ b ∈ unique_id, (id1 a = id1 b ↔ id2 a = id2 b)) ∧
      ∃ σ : Nat → Nat, Set.BijOn σ {k | k < R1} {k | k < R2} ∧
        ∀ a ∈ unique_id, id2 a = (id1 a).map σ := by
  have hE2 : ∀ e ∈ edges2, e.v1 ∈ unique_id ∧ e.v2 ∈ unique_id :=
    fun e he => hE e (hperm.mem_iff.mpr he)
  obtain ⟨id1, R1, vs1, c1, _, _, hG1, hS1⟩ := groupLabels_spec unique_id edges1 hnd hE
  obtain ⟨id2, R2, vs2, c2, _, _, hG2, hS2⟩ := groupLabels_spec unique_id edges2 hnd hE2
  have hpart : ∀ a ∈ unique_id, ∀ b ∈ unique_id, (id1 a = id1 b ↔ id2 a = id2 b) := by
    intro a ha b hb
    rw [hS1.sameId a ha b hb, hS2.sameId a ha b hb]
    exact ⟨connected_congr (fun e he => hperm.mem_iff.mp he),
      connected_congr (fun e he => hperm.mem_iff.mpr he)⟩
  refine ⟨id1, R1, vs1, c1, id2, R2, vs2, c2, hG1, hG2, hpart, ?_⟩
  classical
  -- the renaming sends the id of a label in the first run to its id in the second
  let σ : Nat → Nat := fun k =>
    if h : ∃ a ∈ unique_id, id1 a = some k then (id2 (Classical.choose h)).getD 0 else 0
  have hσ : ∀ a ∈ unique_id, ∀ k, id1 a = some k → id2 a = some (σ k) := by
    intro a ha k hk
    have hex : ∃ a ∈ unique_id, id1 a = some k := ⟨a, ha, hk⟩
    have hspec := Classical.choose_spec hex
    have h1 : id2 (Classical.choose hex) = id2 a :=
      (hpart _ hspec.1 a ha).mp (hspec.2.trans hk.symm)
    obtain ⟨k2, _, hk2⟩ := hS2.total a ha
    simp only [σ, dif_pos hex, h1, hk2, Option.getD_some]
  refine ⟨σ, ⟨?_, ?_, ?_⟩, ?_⟩
  · intro k hk
    obtain ⟨a, ha, hka⟩ := hS1.onto k hk
    obtain ⟨k2, hk2, hk2a⟩ := hS2.total a ha
    have := hσ a ha k hka
    rw [hk2a] at this
    simp only [Option.some.injEq] at this
    simpa [← this] using hk2
  · intro k hk l hl hkl
    obtain ⟨a, ha, hka⟩ := hS1.onto k hk
    obtain ⟨b, hb, hlb⟩ := hS1.onto l hl
    have h1 := hσ a ha k hka
    have h2 := hσ b hb l hlb
    have h3 : id2 a = id2 b := by rw [h1, h2, hkl]
    have h4 := (hpart a ha b hb).mpr h3
    rw [hka, hlb] at h4
    exact Option.some.inj h4
  · intro k2 hk2
    obtain ⟨b, hb, hkb⟩ := hS2.onto k2 hk2
    obtain ⟨k, hk, hka⟩ := hS1.total b hb
    refine ⟨k, hk, ?_⟩
    have := hσ b hb k hka
    rw [hkb] at this
    exact (Option.some.inj this).symm
  · intro a ha
    obtain ⟨k, _, hka⟩ := hS1.total a ha
    rw [hka, hσ a ha k hka]
    rfl

theorem C9_permutation_same_partition_witness :
    ∃ id1 R1 vs1 c1 id2 R2 vs2 c2,
      groupLabels [2, 4, 6] [{ v1 := 4, v2 := 6 }, { v1 := 6, v2 := 2 }]
        = some (id1, R1, vs1, c1) ∧
      groupLabels [2, 4, 6] [{ v1 := 6, v2 := 2 }, { v1 := 4, v2 := 6 }]
        = some (id2, R2, vs2, c2) ∧
      (∀ a ∈ [2, 4, (6 : Int)], ∀ b ∈ [2, 4, (6 : Int)], (id1 a = id1 b ↔ id2 a = id2 b)) ∧
      ∃ σ : Nat → Nat, Set.BijOn σ {k | k < R1} {k | k < R2} ∧
        ∀ a ∈ [2, 4, (6 : Int)], id2 a = (id1 a).map σ :=
  C9_permutation_same_partition [2, 4, 6] [{ v1 := 4, v2 := 6 }, { v1 := 6, v2 := 2 }]
    [{ v1 := 6, v2 := 2 }, { v1 := 4, v2 := 6 }] (by decide) (by decide)
    (List.Perm.swap _ _ _)

/-! ### The label list of an image -/

theorem contains_iff_mem (l : List Int) (a : Int) : l.contains a = true ↔ a ∈ l :=
  List.elem_iff

theorem mem_pushUnique {l : List Int} {i0 a : Int} :
    a ∈ pushUnique l i0 ↔ a ∈ l ∨ (a = i0 ∧ i0 ≠ -1) := by
  unfold pushUnique
  by_cases h1 : i0 = -1
  · simp [h1]
  · have hb : (i0 == -1) = false := by simpa using h1
    rw [hb, if_neg Bool.false_ne_true]
    by_cases h2 : i0 ∈ l
    · rw [if_pos ((contains_iff_mem l i0).mpr h2)]
      constructor
      · exact fun h => Or.inl h
      · rintro (h | ⟨rfl, _⟩)
        · exact h
        · exact h2
    · rw [if_neg (fun h => h2 ((contains_iff_mem l i0).mp h))]
      simp [h1]

theorem nodup_pushUnique {l : List Int} (i0 : Int) (h : l.Nodup) : (pushUnique l i0).Nodup := by
  unfold pushUnique
  split_ifs with h1 h2
  · exact h
  · exact h
  · rw [List.nodup_append]
    refine ⟨h, List.nodup_singleton _, ?_⟩
    intro a ha hb
    simp only [List.mem_singleton] at hb
    subst hb
    exact h2 ((contains_iff_mem l a).mpr ha)

theorem foldl_pushUnique {α : Type} (f : α → Int) (xs : List α) (acc : List Int) :
    (acc.Nodup → (xs.foldl (fun acc x => pushUnique acc (f x)) acc).Nodup) ∧
    ∀ a, a ∈ xs.foldl (fun acc x => pushUnique acc (f x)) acc ↔
      a ∈ acc ∨ ∃ x ∈ xs, a = f x ∧ a ≠ -1 := by
  induction xs generalizing acc with
  | nil => simp
  | cons x xs ih =>
    simp only [List.foldl_cons]
    refine ⟨fun h => (ih _).1 (nodup_pushUnique _ h), fun a => ?_⟩
    rw [(ih _).2, mem_pushUnique]
    constructor
    · rintro ((h | ⟨h1, h2⟩) | ⟨z, hz, h3⟩)
      · exact Or.inl h
      · exact Or.inr ⟨x, List.mem_cons_self _ _, h1, by rw [h1]; exact h2⟩
      · exact Or.inr ⟨z, List.mem_cons_of_mem _ hz, h3⟩
    · rintro (h | ⟨z, hz, h3, h4⟩)
      · exact Or.inl (Or.inl h)
      · rcases List.mem_cons.mp hz with rfl | hz2
        · exact Or.inl (Or.inr ⟨h3, by rw [← h3]; exact h4⟩)
        · exact Or.inr ⟨z, hz2, h3, h4⟩

theorem foldl_rows_pushUnique (pix : Nat → Nat → Int) (xs ys : List Nat) (acc : List Int) :
    (acc.Nodup → (ys.foldl (fun acc y =>
        xs.foldl (fun acc x => pushUnique acc (pix x y)) acc) acc).Nodup) ∧
    ∀ a, a ∈ ys.foldl (fun acc y =>
        xs.foldl (fun acc x => pushUnique acc (pix x y)) acc) acc ↔
      a ∈ acc ∨ ∃ y ∈ ys, ∃ x ∈ xs, a = pix x y ∧ a ≠ -1 := by
  induction ys generalizing acc with
  | nil => simp
  | cons y ys ih =>
    simp only [List.foldl_cons]
    have hin := foldl_pushUnique (fun x => pix x y) xs acc
    refine ⟨fun h => (ih _).1 (hin.1 h), fun a => ?_⟩
    rw [(ih _).2, hin.2]
    constructor
    · rintro ((h | ⟨x, hx, h3⟩) | ⟨z, hz, h3⟩)
      · exact Or.inl h
      · exact Or.inr ⟨y, List.mem_cons_self _ _, x, hx, h3⟩
      · exact Or.inr ⟨z, List.mem_cons_of_mem _ hz, h3⟩
    · rintro (h | ⟨z, hz, h3⟩)
      · exact Or.inl (Or.inl h)
      · rcases List.mem_cons.mp hz with rfl | hz2
        · exact Or.inl (Or.inr h3)
        · exact Or.inr ⟨z, hz2, h3⟩

/-- The labels of an image: the values other than `-1` at its pixels. -/
theorem mem_uniqueIds {indices : Image} {a : Int} :
    a ∈ uniqueIds indices ↔
      ∃ y, y < indices.height ∧ ∃ x, x < indices.width ∧ a = indices.pix x y ∧ a ≠ -1 := by
  unfold uniqueIds collectUnique
  rw [(List.perm_insertionSort _ _).mem_iff,
    (foldl_rows_pushUnique indices.pix (List.range indices.width)
      (List.range indices.height) []).2]
  simp

theorem nodup_uniqueIds (indices : Image) : (uniqueIds indices).Nodup := by
  unfold uniqueIds collectUnique
  rw [(List.perm_insertionSort _ _).nodup_iff]
  exact (foldl_rows_pushUnique indices.pix (List.range indices.width)
      (List.range indices.height) []).1 List.nodup_nil

/-! ### The adjacency scan -/

theorem push_keys (P : Int → Prop) (m : EdgeMap) (key : edge_t) (vals : List Nat)
    (hm : ∀ entry ∈ m, P entry.1.v1 ∧ P entry.1.v2) (hk : P key.v1 ∧ P key.v2) :
    ∀ entry ∈ EdgeMap.push m key vals, P entry.1.v1 ∧ P entry.1.v2 := by
  induction m with
  | nil =>
    intro entry he
    simp only [EdgeMap.push, List.mem_singleton] at he
    subst he
    exact hk
  | cons kr rest ih =>
    obtain ⟨k, r⟩ := kr
    intro entry he
    simp only [EdgeMap.push] at he
    split_ifs at he with h1 h2
    · rcases List.mem_cons.mp he with rfl | he2
      · exact hk
      · exact hm entry he2
    · rcases List.mem_cons.mp he with rfl | he2
      · exact hm _ (List.mem_cons_self _ _)
      · exact ih (fun e2 he3 => hm e2 (List.mem_cons_of_mem _ he3)) entry he2
    · rcases List.mem_cons.mp he with rfl | he2
      · exact hm (k, r) (List.mem_cons_self _ _)
      · exact hm entry (List.mem_cons_of_mem _ he2)

theorem scanPixel_eq (indices : Image) (x y : Nat) (st : EdgeMap × Nat) :
    scanPixel indices x y st =
      (if indices.pix x y = -1 then st.1
        else if indices.pix x y ≠ indices.pix (x + 1) (y + 1) ∧ indices.pix (x + 1) (y + 1) ≠ -1
          then EdgeMap.push st.1 { v1 := indices.pix x y, v2 := indices.pix (x + 1) (y + 1) }
            [st.2, st.2 + 1 + 1 * indices.width]
          else st.1, st.2 + 1) := by
  unfold scanPixel
  by_cases h1 : indices.pix x y = -1
  · simp [h1]
  · by_cases h2 : indices.pix x y ≠ indices.pix (x + 1) (y + 1) ∧ indices.pix (x + 1) (y + 1) ≠ -1
    · simp [h1, h2.1, h2.2]
    · simp only [beq_iff_eq, h1, if_false, List.foldl_cons, List.foldl_nil, if_neg h2]
      simp only [not_and_or, not_not, ne_eq] at h2
      rcases h2 with h2 | h2 <;> simp [h2]

theorem scanPixel_keys (indices : Image) (x y : Nat) (st : EdgeMap × Nat)
    (hx : x + 1 < indices.width) (hy : y + 1 < indices.height)
    (hm : ∀ entry ∈ st.1, entry.1.v1 ∈ uniqueIds indices ∧ entry.1.v2 ∈ uniqueIds indices) :
    ∀ entry ∈ (scanPixel indices x y st).1,
      entry.1.v1 ∈ uniqueIds indices ∧ entry.1.v2 ∈ uniqueIds indices := by
  rw [scanPixel_eq]
  simp only
  split_ifs with h1 h2
  · exact hm
  · apply push_keys _ _ _ _ hm
    constructor
    · exact mem_uniqueIds.mpr ⟨y, by omega, x, by omega, rfl, h1⟩
    · exact mem_uniqueIds.mpr ⟨y + 1, hy, x + 1, hx, rfl, h2.2⟩
  · exact hm

theorem scanRow_keys (indices : Image) (y : Nat) (hy : y + 1 < indices.height)
    (xs : List Nat) (hxs : ∀ x ∈ xs, x + 1 < indices.width) (st : EdgeMap × Nat)
    (hm : ∀ entry ∈ st.1, entry.1.v1 ∈ uniqueIds indices ∧ entry.1.v2 ∈ uniqueIds indices) :
    ∀ entry ∈ (xs.foldl (fun st x => scanPixel indices x y st) st).1,
      entry.1.v1 ∈ uniqueIds indices ∧ entry.1.v2 ∈ uniqueIds indices := by
  induction xs generalizing st with
  | nil => exact hm
  | cons x xs ih =>
    simp only [List.foldl_cons]
    exact ih (fun z hz => hxs z (List.mem_cons_of_mem _ hz)) _
      (scanPixel_keys indices x y st (hxs x (List.mem_cons_self _ _)) hy hm)

theorem scanRows_keys (indices : Image) (xs ys : List Nat)
    (hxy : ys ≠ [] → ∀ x ∈ xs, x + 1 < indices.width)
    (hys : ∀ y ∈ ys, y + 1 < indices.height) (st : EdgeMap × Nat)
    (hm : ∀ entry ∈ st.1, entry.1.v1 ∈ uniqueIds indices ∧ entry.1.v2 ∈ uniqueIds indices) :
    ∀ entry ∈ (ys.foldl (fun st y =>
        xs.foldl (fun st x => scanPixel indices x y st) st) st).1,
      entry.1.v1 ∈ uniqueIds indices ∧ entry.1.v2 ∈ uniqueIds indices := by
  induction ys generalizing st with
  | nil => exact hm
  | cons y ys ih =>
    simp only [List.foldl_cons]
    have hxs := hxy (List.cons_ne_nil _ _)
    exact ih (fun _ => hxs) (fun z hz => hys z (List.mem_cons_of_mem _ hz)) _
      (scanRow_keys indices y (hys y (List.mem_cons_self _ _)) xs hxs st hm)

theorem wrapSub2_small {n : Nat} (h : ¬ 2147483648 ≤ wrapSub2 n) : wrapSub2 n + 2 ≤ n := by
  unfold wrapSub2 at *
  split_ifs at * <;> omega

/-- Every key of the adjacency map joins two labels of the image. -/
theorem buildAdjacency_keys (indices : Image) (m : EdgeMap)
    (h : buildAdjacency indices = some m) :
    ∀ entry ∈ m, entry.1.v1 ∈ uniqueIds indices ∧ entry.1.v2 ∈ uniqueIds indices := by
  unfold buildAdjacency at h
  simp only at h
  split_ifs at h with h1 h2
  simp only [Option.some.injEq] at h
  subst h
  have hH := wrapSub2_small h1
  apply scanRows_keys
  · intro hne x hx
    have hpos : 0 < wrapSub2 indices.height := by
      rcases Nat.eq_zero_or_pos (wrapSub2 indices.height) with h0 | h0
      · rw [h0] at hne
        exact absurd rfl hne
      · exact h0
    have hW := wrapSub2_small (fun hc => h2 ⟨hpos, hc⟩)
    have := List.mem_range.mp hx
    omega
  · intro y hy
    have := List.mem_range.mp hy
    omega
  · intro entry he
    simp at he

theorem buildAdjacency_isSome (indices : Image)
    (hW : 2 ≤ indices.width) (hW2 : indices.width < 2147483648)
    (hH : 2 ≤ indices.height) (hH2 : indices.height < 2147483648) :
    ∃ m, buildAdjacency indices = some m := by
  have h1 : ¬ 2147483648 ≤ wrapSub2 indices.height := by
    unfold wrapSub2
    split_ifs <;> omega
  have h2 : ¬ 2147483648 ≤ wrapSub2 indices.width := by
    unfold wrapSub2
    split_ifs <;> omega
  unfold buildAdjacency
  simp only
  rw [if_neg h1, if_neg (fun hc => h2 hc.2)]
  exact ⟨_, rfl⟩

theorem adjacencyEdges_labels (geom : Geometry) (indices : Image) (edges : List Edge)
    (h : adjacencyEdges geom indices = some edges) :
    ∀ e ∈ edges, e.v1 ∈ uniqueIds indices ∧ e.v2 ∈ uniqueIds indices := by
  unfold adjacencyEdges at h
  cases hm : buildAdjacency indices with
  | none => simp [hm] at h
  | some m =>
    simp only [hm, Option.map_some', Option.some.injEq] at h
    subst h
    intro e he
    obtain ⟨entry, hentry, rfl⟩ := List.mem_map.mp he
    exact buildAdjacency_keys indices m hm entry hentry

/-! ### The output image -/

theorem relabelRow_spec (id2new : IntMap Nat) (y : Nat) (xs : List Nat) (hnd : xs.Nodup)
    (g : Image)
    (hdef : ∀ x ∈ xs, g.pix x y ≠ -1 → ∃ k, id2new (g.pix x y) = some k) :
    ∃ g2, loopM (relabelPixel id2new y) xs g = some g2 ∧
      g2.width = g.width ∧ g2.height = g.height ∧
      ∀ x2 y2, ((y2 = y ∧ x2 ∈ xs) → Relabelled id2new (g.pix x2 y2) (g2.pix x2 y2)) ∧
        (¬ (y2 = y ∧ x2 ∈ xs) → g2.pix x2 y2 = g.pix x2 y2) := by
  induction xs generalizing g with
  | nil =>
    refine ⟨g, rfl, rfl, rfl, fun x2 y2 => ⟨?_, fun _ => rfl⟩⟩
    rintro ⟨_, h⟩
    simp at h
  | cons x xs ih =>
    have hx : x ∉ xs := (List.nodup_cons.mp hnd).1
    -- the pixel `(x,y)` is rewritten first
    have hstep : ∃ g1, relabelPixel id2new y g x = some g1 ∧
        g1.width = g.width ∧ g1.height = g.height ∧
        Relabelled id2new (g.pix x y) (g1.pix x y) ∧
        ∀ x2 y2, ¬ (y2 = y ∧ x2 = x) → g1.pix x2 y2 = g.pix x2 y2 := by
      unfold relabelPixel
      by_cases h1 : g.pix x y = -1
      · refine ⟨g, by simp [h1], rfl, rfl, Or.inl ⟨h1, h1⟩, fun _ _ _ => rfl⟩
      · obtain ⟨k, hk⟩ := hdef x (List.mem_cons_self _ _) h1
        refine ⟨g.set x y (k : Int), by simp [h1, hk], rfl, rfl, ?_, ?_⟩
        · exact Or.inr ⟨h1, k, hk, by simp [Image.set]⟩
        · intro x2 y2 hne
          have : ¬ (x2 = x ∧ y2 = y) := fun hc => hne ⟨hc.2, hc.1⟩
          simp [Image.set, this]
    obtain ⟨g1, hg1, hw1, hh1, hrel1, hsame1⟩ := hstep
    have hdef1 : ∀ z ∈ xs, g1.pix z y ≠ -1 → ∃ k, id2new (g1.pix z y) = some k := by
      intro z hz
      have hzx : ¬ (y = y ∧ z = x) := by
        rintro ⟨_, rfl⟩
        exact hx hz
      rw [hsame1 z y hzx]
      exact hdef z (List.mem_cons_of_mem _ hz)
    obtain ⟨g2, hg2, hw2, hh2, hpix2⟩ := ih (List.nodup_cons.mp hnd).2 g1 hdef1
    refine ⟨g2, ?_, by rw [hw2, hw1], by rw [hh2, hh1], ?_⟩
    · simp only [loopM, hg1, Option.some_bind]
      exact hg2
    · intro x2 y2
      constructor
      · rintro ⟨hy2, hx2⟩
        subst hy2
        rcases List.mem_cons.mp hx2 with rfl | hx3
        · rw [(hpix2 x2 y2).2 (fun hc => hx hc.2)]
          exact hrel1
        · have hne : ¬ (y2 = y2 ∧ x2 = x) := by
            rintro ⟨_, rfl⟩
            exact hx hx3
          rw [← hsame1 x2 y2 hne]
          exact (hpix2 x2 y2).1 ⟨rfl, hx3⟩
      · intro hne
        have h1 : ¬ (y2 = y ∧ x2 ∈ xs) := fun hc => hne ⟨hc.1, List.mem_cons_of_mem _ hc.2⟩
        have h2 : ¬ (y2 = y ∧ x2 = x) := fun hc => hne ⟨hc.1, by rw [hc.2]; exact List.mem_cons_self _ _⟩
        rw [(hpix2 x2 y2).2 h1, hsame1 x2 y2 h2]

theorem relabelRows_spec (id2new : IntMap Nat) (xs : List Nat) (hxs : xs.Nodup)
    (ys : List Nat) (hys : ys.Nodup) (g : Image)
    (hdef : ∀ y ∈ ys, ∀ x ∈ xs, g.pix x y ≠ -1 → ∃ k, id2new (g.pix x y) = some k) :
    ∃ g2, loopM (fun group y => loopM (relabelPixel id2new y) xs group) ys g = some g2 ∧
      g2.width = g.width ∧ g2.height = g.height ∧
      ∀ x2 y2, ((y2 ∈ ys ∧ x2 ∈ xs) → Relabelled id2new (g.pix x2 y2) (g2.pix x2 y2)) ∧
        (¬ (y2 ∈ ys ∧ x2 ∈ xs) → g2.pix x2 y2 = g.pix x2 y2) := by
  induction ys generalizing g with
  | nil =>
    refine ⟨g, rfl, rfl, rfl, fun x2 y2 => ⟨?_, fun _ => rfl⟩⟩
    rintro ⟨h, _⟩
    simp at h
  | cons y ys ih =>
    have hy : y ∉ ys := (List.nodup_cons.mp hys).1
    obtain ⟨g1, hg1, hw1, hh1, hpix1⟩ :=
      relabelRow_spec id2new y xs hxs g (hdef y (List.mem_cons_self _ _))
    have hdef1 : ∀ z ∈ ys, ∀ x ∈ xs, g1.pix x z ≠ -1 → ∃ k, id2new (g1.pix x z) = some k := by
      intro z hz x hx
      have hzy : ¬ (z = y ∧ x ∈ xs) := by
        rintro ⟨rfl, _⟩
        exact hy hz
      rw [(hpix1 x z).2 hzy]
      exact hdef z (List.mem_cons_of_mem _ hz) x hx
    obtain ⟨g2, hg2, hw2, hh2, hpix2⟩ := ih (List.nodup_cons.mp hys).2 g1 hdef1
    refine ⟨g2, ?_, by rw [hw2, hw1], by rw [hh2, hh1], ?_⟩
    · simp only [loopM, hg1, Option.some_bind]
      exact hg2
    · intro x2 y2
      constructor
      · rintro ⟨hy2, hx2⟩
        rcases List.mem_cons.mp hy2 with rfl | hy3
        · rw [(hpix2 x2 y2).2 (fun hc => hy hc.1)]
          exact (hpix1 x2 y2).1 ⟨rfl, hx2⟩
        · have hne : ¬ (y2 = y ∧ x2 ∈ xs) := by
            rintro ⟨rfl, _⟩
            exact hy hy3
          rw [← (hpix1 x2 y2).2 hne]
          exact (hpix2 x2 y2).1 ⟨hy3, hx2⟩
      · intro hne
        have h1 : ¬ (y2 ∈ ys ∧ x2 ∈ xs) := fun hc => hne ⟨List.mem_cons_of_mem _ hc.1, hc.2⟩
        have h2 : ¬ (y2 = y ∧ x2 ∈ xs) :=
          fun hc => hne ⟨by rw [hc.1]; exact List.mem_cons_self _ _, hc.2⟩
        rw [(hpix2 x2 y2).2 h1, (hpix1 x2 y2).2 h2]

/-- The output loops return when every label of the image has an id, and then
rewrite every pixel of the image once. -/
theorem relabelImage_spec (id2new : IntMap Nat) (indices : Image)
    (hdef : ∀ a ∈ uniqueIds indices, ∃ k, id2new a = some k) :
    ∃ g, relabelImage id2new indices = some g ∧
      g.width = indices.width ∧ g.height = indices.height ∧
      ∀ x y, x < indices.width → y < indices.height →
        Relabelled id2new (indices.pix x y) (g.pix x y) := by
  obtain ⟨g, h1, h2, h3, h4⟩ := relabelRows_spec id2new (List.range indices.width)
    (List.nodup_range _) (List.range indices.height) (List.nodup_range _) indices (by
      intro y hy x hx hne
      exact hdef _ (mem_uniqueIds.mpr
        ⟨y, List.mem_range.mp hy, x, List.mem_range.mp hx, rfl, hne⟩))
  exact ⟨g, h1, h2, h3, fun x y hx hy =>
    (h4 x y).1 ⟨List.mem_range.mpr hy, List.mem_range.mpr hx⟩⟩

/-! ### The merge stage -/

theorem mergeStage_ok {ndebug : Bool} {unique_id : List Int} {edges : List Edge}
    {r : IntMap Nat × Nat} (h : mergeStage ndebug unique_id edges = Except.ok r) :
    ∃ vs c, unionPass unique_id edges = some (vs, c) ∧ relabelPass vs = some r := by
  unfold mergeStage at h
  split_ifs at h with h1
  cases hU : unionPass unique_id edges with
  | none => simp [hU] at h
  | some st =>
    obtain ⟨vs, c⟩ := st
    simp only [hU] at h
    split_ifs at h with h2
    cases hR : relabelPass vs with
    | none => simp [hR] at h
    | some r2 =>
      simp only [hR, Except.ok.injEq] at h
      subst h
      exact ⟨vs, c, rfl, hR⟩

theorem mergeStage_ndebug {unique_id : List Int} {edges : List Edge}
    {vs : List Vertex} {c : Nat} {r : IntMap Nat × Nat}
    (hU : unionPass unique_id edges = some (vs, c)) (hR : relabelPass vs = some r) :
    mergeStage true unique_id edges = Except.ok r := by
  simp [mergeStage, hU, hR]

/-! ### Claims about the merge stage, the scan, the weights and the output -/

theorem rootsBelow_id (m : Nat) : rootsBelow (fun i => i) m = m := by
  simp [rootsBelow]

/-- C2 (as stated, refuted): for the single label 0 and no edges the merge
stage with assertions enabled stops at the assertion `test == unique_id`. -/
theorem C2_single_label_assertion_fails :
    mergeStage false [0] [] = Except.error Abort.assertLabels := by
  rfl

/-- C2 (amended): for `N >= 1` distinct labels and no edges the assertion
`test == unique_id` fails when assertions are enabled; with assertions compiled
out the merge stage returns, hands out `N` ids and gives the label at index `i`
the id `i`, so the ids are distinct and form `0 .. N-1` (id 0 for `N = 1`). -/
theorem C2_no_edges_singletons (unique_id : List Int) (hnd : unique_id.Nodup)
    (hne : unique_id ≠ []) :
    mergeStage false unique_id [] = Except.error Abort.assertLabels ∧
    ∃ id2new, mergeStage true unique_id [] = Except.ok (id2new, unique_id.length) ∧
      ∀ (i : Nat) (hi : i < unique_id.length), id2new unique_id[i] = some i := by
  constructor
  · have h1 : edgeLabels [] = [] := rfl
    have h2 : (([] : List Int) != unique_id) = true := by
      cases unique_id with
      | nil => exact absurd rfl hne
      | cons a l => rfl
    simp [mergeStage, h1, h2]
  · have hU : unionPass unique_id [] = some (initVertices unique_id 0, 0) := rfl
    obtain ⟨id2new, hR, hid⟩ := relabelPass_spec (Forest.init unique_id) hnd
    rw [rootsBelow_id, initVertices_length] at hR
    refine ⟨id2new, mergeStage_ndebug hU hR, ?_⟩
    intro i hi
    have := hid i (by rw [initVertices_length]; exact hi) _ (List.getElem?_eq_getElem hi)
    rw [this, rootsBelow_id]

theorem C2_no_edges_singletons_witness :
    mergeStage false [3, 8] [] = Except.error Abort.assertLabels ∧
    ∃ id2new, mergeStage true [3, 8] [] = Except.ok (id2new, [3, (8 : Int)].length) ∧
      ∀ (i : Nat) (hi : i < [3, (8 : Int)].length), id2new [3, (8 : Int)][i] = some i :=
  C2_no_edges_singletons [3, 8] (by decide) (by decide)

/-- C3 (code evaluated at the failing input): on `collisionImage` the scan
records the pairs (0,1), (0,2) and (1,0), yet the edge list holds the edge (0,1)
with count 4 and the edge (1,0) with count 2: the pair {0,2} is missing, its
contributions are counted for (0,1), and the pair {0,1} appears in both
orders.  The comparator cannot tell (0,1) from (0,2), and the symmetric
`operator==` is never consulted. -/
theorem C3_map_merges_keys_by_first_label :
    adjacencyEdges concaveGeometry collisionImage =
      some [{ v1 := 0, v2 := 1, count := 4, weight := 0 },
            { v1 := 1, v2 := 0, count := 2, weight := 0 }] ∧
    (collisionImage.pix 0 0 = 0 ∧ collisionImage.pix 1 1 = 1) ∧
    (collisionImage.pix 1 0 = 0 ∧ collisionImage.pix 2 1 = 2) ∧
    (collisionImage.pix 1 1 = 1 ∧ collisionImage.pix 2 2 = 0) ∧
    edge_t.lt { v1 := 0, v2 := 1 } { v1 := 0, v2 := 2 } = false ∧
    edge_t.lt { v1 := 0, v2 := 2 } { v1 := 0, v2 := 1 } = false ∧
    edge_t.eqv { v1 := 0, v2 := 1 } { v1 := 1, v2 := 0 } = true := by
  decide

/-- C4 (code evaluated at the failing input): on `cornerImage` the position
`(1,1)` has `x+1 < W`, `y+1 < H` and two distinct valid labels on its diagonal,
so the claimed sum is 2, but the scan stops at `x < W-2`, `y < H-2`, never
uses `(1,1)` as an anchor and emits no edge: the sum of the counts is 0. -/
theorem C4_scan_skips_last_anchor :
    (adjacencyEdges concaveGeometry cornerImage).map (fun es => (es.map Edge.count).sum)
      = some 0 ∧
    2 * diagonalPairs cornerImage = 2 ∧
    (1 + 1 < cornerImage.width ∧ 1 + 1 < cornerImage.height ∧
      cornerImage.pix 1 1 = 0 ∧ cornerImage.pix 2 2 = 1) := by
  decide

/-- C5 (code evaluated at the failing input): every stored edge weight is 0,
whatever the geometry, although the local variable `weight` is 100 for a
non-convex pair and 0 for a convex one; in `mixedGeometry` the non-convex edge
(0,1) and the convex, aligned edge (1,2) both carry weight 0. -/
theorem C5_stored_weight_is_zero :
    (∀ (geom : Geometry) (entry : edge_t × List Nat), (makeEdge geom entry).weight = 0) ∧
    (∀ a : ℚ, a < 0 → localWeight a = 100) ∧
    (∀ a : ℚ, 0 ≤ a → localWeight a = 0) ∧
    mixedGeometry.convexAngle 0 1 < 0 ∧
    (0 ≤ mixedGeometry.convexAngle 1 2 ∧ mixedGeometry.cosNorm 1 2 = 1) ∧
    ¬ ((makeEdge mixedGeometry ({ v1 := 0, v2 := 1 }, [0, 5])).weight >
        (makeEdge mixedGeometry ({ v1 := 1, v2 := 2 }, [1, 6])).weight) := by
  refine ⟨fun _ _ => rfl, ?_, ?_, ?_, ?_, ?_⟩
  · intro a ha
    unfold localWeight
    simp only [if_pos ha]
    split_ifs <;> simp_all
  · intro a ha
    unfold localWeight
    simp only [if_neg (not_lt.mpr ha)]
    norm_num
  · simp [mixedGeometry]
  · simp [mixedGeometry]
  · simp [makeEdge]

theorem relabelled_iff {id2new : IntMap Nat} {old new : Int} (h : Relabelled id2new old new) :
    (new = -1 ↔ old = -1) ∧ (old ≠ -1 → ∃ k : Nat, id2new old = some k ∧ new = (k : Int)) := by
  rcases h with ⟨h1, h2⟩ | ⟨h1, k, hk, h2⟩
  · exact ⟨⟨fun _ => h1, fun _ => h2⟩, fun hc => absurd h1 hc⟩
  · refine ⟨⟨fun hc => ?_, fun hc => absurd hc h1⟩, fun _ => ⟨k, hk, h2⟩⟩
    rw [h2] at hc
    omega

/-- C7: whenever `DsapGrouping` returns, with or without assertions, the
returned image has the dimensions of the label image, holds `-1` exactly where
the label image holds `-1`, and holds at every other pixel the id below `R` that
the merge stage assigned to that pixel's label, as a non-negative number; with
assertions compiled out it returns on every label image of at least 2x2 pixels. -/
theorem C7_output_image (sorter : List Edge → List Edge)
    (hsort : ∀ l, (sorter l).Perm l) (geom : Geometry) (indices : Image) :
    (∀ ndebug g, DsapGroupingFrom ndebug sorter geom indices = Except.ok g →
      g.width = indices.width ∧ g.height = indices.height ∧
      ∃ edges id2new R, adjacencyEdges geom indices = some edges ∧
        mergeStage ndebug (uniqueIds indices) (sorter edges) = Except.ok (id2new, R) ∧
        ∀ x y, x < indices.width → y < indices.height →
          (g.pix x y = -1 ↔ indices.pix x y = -1) ∧
          (indices.pix x y ≠ -1 →
            ∃ k : Nat, k < R ∧ id2new (indices.pix x y) = some k ∧ g.pix x y = (k : Int))) ∧
    (2 ≤ indices.width → indices.width < 2147483648 →
      2 ≤ indices.height → indices.height < 2147483648 →
      ∃ g, DsapGroupingFrom true sorter geom indices = Except.ok g) := by
  have hspec : ∀ unsorted, adjacencyEdges geom indices = some unsorted →
      ∃ id2new R vs c, unionPass (uniqueIds indices) (sorter unsorted) = some (vs, c) ∧
        relabelPass vs = some (id2new, R) ∧
        (∀ a ∈ uniqueIds indices, ∃ k, k < R ∧ id2new a = some k) := by
    intro unsorted hA
    have hE : ∀ e ∈ sorter unsorted,
        e.v1 ∈ uniqueIds indices ∧ e.v2 ∈ uniqueIds indices :=
      fun e he => adjacencyEdges_labels geom indices unsorted hA e ((hsort _).mem_iff.mp he)
    obtain ⟨id2new, R, vs, c, hU, hR, _, hS⟩ :=
      groupLabels_spec (uniqueIds indices) (sorter unsorted) (nodup_uniqueIds indices) hE
    exact ⟨id2new, R, vs, c, hU, hR, hS.total⟩
  constructor
  · intro ndebug g h
    unfold DsapGroupingFrom at h
    cases hA : adjacencyEdges geom indices with
    | none => simp [hA] at h
    | some unsorted =>
      simp only [hA] at h
      cases hM : mergeStage ndebug (uniqueIds indices) (sorter unsorted) with
      | error e => simp [hM] at h
      | ok r =>
        simp only [hM] at h
        obtain ⟨id2new, R, vs, c, hU, hR, htot⟩ := hspec unsorted hA
        obtain ⟨vs2, c2, hU2, hR2⟩ := mergeStage_ok hM
        rw [hU] at hU2
        simp only [Option.some.injEq, Prod.mk.injEq] at hU2
        obtain ⟨rfl, rfl⟩ := hU2
        rw [hR] at hR2
        simp only [Option.some.injEq] at hR2
        subst hR2
        obtain ⟨g2, hI, hw, hh, hpix⟩ := relabelImage_spec id2new indices
          (fun a ha => (htot a ha).imp (fun _ hk => hk.2))
        simp only [hI, Except.ok.injEq] at h
        subst h
        refine ⟨hw, hh, unsorted, id2new, R, rfl, hM, ?_⟩
        intro x y hx hy
        have hrel := relabelled_iff (hpix x y hx hy)
        refine ⟨hrel.1, fun hne => ?_⟩
        obtain ⟨k, hk, hg⟩ := hrel.2 hne
        obtain ⟨k2, hk2, hk3⟩ := htot _ (mem_uniqueIds.mpr ⟨y, hy, x, hx, rfl, hne⟩)
        rw [hk] at hk3
        simp only [Option.some.injEq] at hk3
        subst hk3
        exact ⟨k, hk2, hk, hg⟩
  · intro hW hW2 hH hH2
    obtain ⟨m, hm⟩ := buildAdjacency_isSome indices hW hW2 hH hH2
    have hA : adjacencyEdges geom indices = some (m.map (makeEdge geom)) := by
      simp [adjacencyEdges, hm]
    obtain ⟨id2new, R, vs, c, hU, hR, htot⟩ := hspec _ hA
    obtain ⟨g2, hI, -⟩ := relabelImage_spec id2new indices
      (fun a ha => (htot a ha).imp (fun _ hk => hk.2))
    refine ⟨g2, ?_⟩
    unfold DsapGroupingFrom
    simp only [hA, mergeStage_ndebug hU hR, hI]

theorem C7_output_image_witness :
    (∀ ndebug g, DsapGroupingFrom ndebug (fun l => l) concaveGeometry pairImage = Except.ok g →
      g.width = pairImage.width ∧ g.height = pairImage.height ∧
      ∃ edges id2new R, adjacencyEdges concaveGeometry pairImage = some edges ∧
        mergeStage ndebug (uniqueIds pairImage) edges = Except.ok (id2new, R) ∧
        ∀ x y, x < pairImage.width → y < pairImage.height →
          (g.pix x y = -1 ↔ pairImage.pix x y = -1) ∧
          (pairImage.pix x y ≠ -1 →
            ∃ k : Nat, k < R ∧ id2new (pairImage.pix x y) = some k ∧ g.pix x y = (k : Int))) ∧
    (2 ≤ pairImage.width → pairImage.width < 2147483648 →
      2 ≤ pairImage.height → pairImage.height < 2147483648 →
      ∃ g, DsapGroupingFrom true (fun l => l) concaveGeometry pairImage = Except.ok g) :=
  C7_output_image (fun l => l) (fun l => List.Perm.refl l) concaveGeometry pairImage

/-! ### Density normalisation -/

theorem totalDensity_zeros (P : Nat) :
    totalDensity (List.replicate P (FVal.fin 0)) = FVal.fin 0 := by
  unfold totalDensity
  induction P with
  | zero => rfl
  | succ P ih =>
    simp only [List.replicate_succ, List.foldl_cons, FVal.add, add_zero]
    exact ih

/-- C10 (code evaluated at the failing input): there is no test of the total
density.  For every target count `N + 1 > 0` and every field of `P` zero
densities the scale factor is `(N + 1) / 0`, an infinity, and every density
becomes `0 * inf`, which is NaN and not 0; so for one pixel of density 0 and
target count 1. -/
theorem C10_zero_total_density_gives_nan :
    (∀ N P : Nat, densityScaleFactor (N + 1) (List.replicate P (FVal.fin 0)) = FVal.pinf ∧
      normaliseDensity (N + 1) (List.replicate P (FVal.fin 0)) = List.replicate P FVal.nan) ∧
    densityScaleFactor 1 [FVal.fin 0] = FVal.pinf ∧
    normaliseDensity 1 [FVal.fin 0] = [FVal.nan] := by
  have hgen : ∀ N P : Nat,
      densityScaleFactor (N + 1) (List.replicate P (FVal.fin 0)) = FVal.pinf ∧
      normaliseDensity (N + 1) (List.replicate P (FVal.fin 0)) = List.replicate P FVal.nan := by
    intro N P
    have hpos : (0 : ℚ) < ((N + 1 : Nat) : ℚ) := by exact_mod_cast Nat.succ_pos N
    have hf : densityScaleFactor (N + 1) (List.replicate P (FVal.fin 0)) = FVal.pinf := by
      unfold densityScaleFactor
      rw [totalDensity_zeros]
      have hnz : ¬ ((N + 1 : Nat) : ℚ) = 0 := ne_of_gt hpos
      have hnl : ¬ ((N + 1 : Nat) : ℚ) < 0 := not_lt.mpr (le_of_lt hpos)
      simp only [FVal.div, if_true, if_neg hnz, FVal.inf, decide_eq_true_eq, if_neg hnl]
    refine ⟨hf, ?_⟩
    unfold normaliseDensity
    rw [if_pos (Nat.succ_pos N), hf]
    simp [FVal.mul]
  exact ⟨hgen, (hgen 0 1).1, (hgen 0 1).2⟩

/-! ### The finite-difference estimator -/

/-- C13: when the left side is invalid, the right side is invalid and the
speckle rule does not apply, `LocalFiniteDifferencesPrimesense` returns 0. -/
theorem C13_both_sides_invalid_zero (v0 v1 v2 v3 v4 : Nat)
    (hl : v0 = 0 ∨ v1 = 0) (hr : v3 = 0 ∨ v4 = 0)
    (hs : ¬ (v0 = 0 ∧ v4 = 0 ∧ v1 ≠ 0 ∧ v3 ≠ 0)) :
    LocalFiniteDifferencesPrimesense v0 v1 v2 v3 v4 = 0 := by
  unfold LocalFiniteDifferencesPrimesense
  have h1 : (v0 == 0 && v4 == 0 && v1 != 0 && v3 != 0) = false := by
    rw [Bool.eq_false_iff]
    intro hc
    simp only [Bool.and_eq_true, beq_iff_eq, bne_iff_ne, ne_eq] at hc
    exact hs ⟨hc.1.1.1, hc.1.1.2, hc.1.2, hc.2⟩
  have h2 : ((v0 == 0 || v1 == 0) && (v3 == 0 || v4 == 0)) = true := by
    simp only [Bool.and_eq_true, Bool.or_eq_true, beq_iff_eq]
    exact ⟨hl, hr⟩
  simp only [h1, h2, Bool.false_eq_true, if_false, if_true]

theorem C13_both_sides_invalid_zero_witness :
    LocalFiniteDifferencesPrimesense 0 0 6 7 0 = 0 :=
  C13_both_sides_invalid_zero 0 0 6 7 0 (Or.inl rfl) (Or.inr rfl) (by decide)

/-- C14: when only the left side is invalid `LocalFiniteDifferencesPrimesense`
returns `v4 - v2`; when only the right side is invalid it returns `v2 - v0`. -/
theorem C14_one_side_invalid (v0 v1 v2 v3 v4 : Nat) :
    ((v0 = 0 ∨ v1 = 0) → v3 ≠ 0 → v4 ≠ 0 →
      LocalFiniteDifferencesPrimesense v0 v1 v2 v3 v4 = (v4 : ℚ) - (v2 : ℚ)) ∧
    ((v3 = 0 ∨ v4 = 0) → v0 ≠ 0 → v1 ≠ 0 →
      LocalFiniteDifferencesPrimesense v0 v1 v2 v3 v4 = (v2 : ℚ) - (v0 : ℚ)) := by
  constructor
  · intro hl h3 h4
    unfold LocalFiniteDifferencesPrimesense
    have h1 : (v0 == 0 && v4 == 0 && v1 != 0 && v3 != 0) = false := by
      rw [Bool.eq_false_iff]
      intro hc
      simp only [Bool.and_eq_true, beq_iff_eq, bne_iff_ne, ne_eq] at hc
      exact h4 hc.1.1.2
    have h2 : (v0 == 0 || v1 == 0) = true := by
      simp only [Bool.or_eq_true, beq_iff_eq]
      exact hl
    have h5 : (v3 == 0 || v4 == 0) = false := by
      rw [Bool.eq_false_iff]
      intro hc
      simp only [Bool.or_eq_true, beq_iff_eq] at hc
      exact hc.elim h3 h4
    simp only [h1, h2, h5, Bool.and_false, Bool.false_eq_true, if_false, if_true]
  · intro hr h0 h1
    unfold LocalFiniteDifferencesPrimesense
    have h2 : (v0 == 0 && v4 == 0 && v1 != 0 && v3 != 0) = false := by
      rw [Bool.eq_false_iff]
      intro hc
      simp only [Bool.and_eq_true, beq_iff_eq, bne_iff_ne, ne_eq] at hc
      exact h0 hc.1.1.1
    have h3 : (v0 == 0 || v1 == 0) = false := by
      rw [Bool.eq_false_iff]
      intro hc
      simp only [Bool.or_eq_true, beq_iff_eq] at hc
      exact hc.elim h0 h1
    have h4 : (v3 == 0 || v4 == 0) = true := by
      simp only [Bool.or_eq_true, beq_iff_eq]
      exact hr
    simp only [h2, h3, h4, Bool.false_and, Bool.false_eq_true, if_false, if_true]

theorem C14_one_side_invalid_witness :
    LocalFiniteDifferencesPrimesense 0 5 6 9 8 = ((8 : Nat) : ℚ) - ((6 : Nat) : ℚ) ∧
    LocalFiniteDifferencesPrimesense 3 5 6 9 0 = ((6 : Nat) : ℚ) - ((3 : Nat) : ℚ) :=
  ⟨(C14_one_side_invalid 0 5 6 9 8).1 (Or.inl rfl) (by decide) (by decide),
   (C14_one_side_invalid 3 5 6 9 0).2 (Or.inr rfl) (by decide) (by decide)⟩

theorem blend_eq (v0 v1 v2 v3 v4 : Nat)
    (h0 : v0 ≠ 0) (h1 : v1 ≠ 0) (h3 : v3 ≠ 0) (h4 : v4 ≠ 0) :
    LocalFiniteDifferencesPrimesense v0 v1 v2 v3 v4 =
      (if abs ((v2 : ℚ) + v0 - 2 * v1) + abs ((v4 : ℚ) + v2 - 2 * v3) = 0 then 1 / 2
        else abs ((v4 : ℚ) + v2 - 2 * v3) /
          (abs ((v2 : ℚ) + v0 - 2 * v1) + abs ((v4 : ℚ) + v2 - 2 * v3))) * ((v2 : ℚ) - v0)
      + (if abs ((v2 : ℚ) + v0 - 2 * v1) + abs ((v4 : ℚ) + v2 - 2 * v3) = 0 then 1 / 2
        else abs ((v2 : ℚ) + v0 - 2 * v1) /
          (abs ((v2 : ℚ) + v0 - 2 * v1) + abs ((v4 : ℚ) + v2 - 2 * v3))) * ((v4 : ℚ) - v2) := by
  unfold LocalFiniteDifferencesPrimesense
  have e1 : (v0 == 0 && v4 == 0 && v1 != 0 && v3 != 0) = false := by
    rw [Bool.eq_false_iff]
    intro hc
    simp only [Bool.and_eq_true, beq_iff_eq, bne_iff_ne, ne_eq] at hc
    exact h0 hc.1.1.1
  have e2 : (v0 == 0 || v1 == 0) = false := by
    rw [Bool.eq_false_iff]
    intro hc
    simp only [Bool.or_eq_true, beq_iff_eq] at hc
    exact hc.elim h0 h1
  have e3 : (v3 == 0 || v4 == 0) = false := by
    rw [Bool.eq_false_iff]
    intro hc
    simp only [Bool.or_eq_true, beq_iff_eq] at hc
    exact hc.elim h3 h4
  simp only [e1, e2, e3, Bool.false_and, Bool.false_eq_true, if_false]

/-- A mean of `x` and `y` with weights `q, p >= 0`, `p + q = 1`, lies between them. -/
theorem convex_between (x y p q : ℚ) (hp : 0 ≤ p) (hq : 0 ≤ q) (hpq : p + q = 1) :
    min x y ≤ q * x + p * y ∧ q * x + p * y ≤ max x y := by
  have hx1 : min x y ≤ x := min_le_left x y
  have hy1 : min x y ≤ y := min_le_right x y
  have hx2 : x ≤ max x y := le_max_left x y
  have hy2 : y ≤ max x y := le_max_right x y
  constructor
  · calc min x y = q * min x y + p * min x y := by rw [← add_mul, add_comm q p, hpq, one_mul]
      _ ≤ q * x + p * y :=
        add_le_add (mul_le_mul_of_nonneg_left hx1 hq) (mul_le_mul_of_nonneg_left hy1 hp)
  · calc q * x + p * y ≤ q * max x y + p * max x y :=
        add_le_add (mul_le_mul_of_nonneg_left hx2 hq) (mul_le_mul_of_nonneg_left hy2 hp)
      _ = max x y := by rw [← add_mul, add_comm q p, hpq, one_mul]

/-- C19: for five non-zero samples the result is `q*(v2 - v0) + p*(v4 - v2)`
with `p, q >= 0` and `p + q = 1`; with `a = |v2 + v0 - 2*v1|` the second
difference of the left side and `b = |v4 + v2 - 2*v3|` that of the right side,
the left estimate has the weight `q = b/(a+b)` and the right estimate the weight
`p = a/(a+b)` (both 1/2 when `a + b = 0`); so the side with the larger second
difference has the smaller weight, and the result lies between the two
one-sided differences. -/
theorem C19_blend_is_convex_combination (v0 v1 v2 v3 v4 : Nat)
    (h0 : v0 ≠ 0) (h1 : v1 ≠ 0) (h2 : v2 ≠ 0) (h3 : v3 ≠ 0) (h4 : v4 ≠ 0) :
    ∃ p q : ℚ, 0 ≤ p ∧ 0 ≤ q ∧ p + q = 1 ∧
      LocalFiniteDifferencesPrimesense v0 v1 v2 v3 v4
        = q * ((v2 : ℚ) - v0) + p * ((v4 : ℚ) - v2) ∧
      (abs ((v2 : ℚ) + v0 - 2 * v1) + abs ((v4 : ℚ) + v2 - 2 * v3) = 0 →
        p = 1 / 2 ∧ q = 1 / 2) ∧
      (abs ((v2 : ℚ) + v0 - 2 * v1) + abs ((v4 : ℚ) + v2 - 2 * v3) ≠ 0 →
        p = abs ((v2 : ℚ) + v0 - 2 * v1) /
            (abs ((v2 : ℚ) + v0 - 2 * v1) + abs ((v4 : ℚ) + v2 - 2 * v3)) ∧
        q = abs ((v4 : ℚ) + v2 - 2 * v3) /
            (abs ((v2 : ℚ) + v0 - 2 * v1) + abs ((v4 : ℚ) + v2 - 2 * v3))) ∧
      (abs ((v4 : ℚ) + v2 - 2 * v3) < abs ((v2 : ℚ) + v0 - 2 * v1) → q < p) ∧
      (abs ((v2 : ℚ) + v0 - 2 * v1) < abs ((v4 : ℚ) + v2 - 2 * v3) → p < q) ∧
      min ((v2 : ℚ) - v0) ((v4 : ℚ) - v2) ≤ LocalFiniteDifferencesPrimesense v0 v1 v2 v3 v4 ∧
      LocalFiniteDifferencesPrimesense v0 v1 v2 v3 v4 ≤ max ((v2 : ℚ) - v0) ((v4 : ℚ) - v2) := by
  have _ := h2
  have ha := abs_nonneg ((v2 : ℚ) + v0 - 2 * v1)
  have hb := abs_nonneg ((v4 : ℚ) + v2 - 2 * v3)
  rw [blend_eq v0 v1 v2 v3 v4 h0 h1 h3 h4]
  generalize abs ((v2 : ℚ) + v0 - 2 * v1) = a at ha ⊢
  generalize abs ((v4 : ℚ) + v2 - 2 * v3) = b at hb ⊢
  by_cases hab : a + b = 0
  · have ha0 : a = 0 := by linarith
    have hb0 : b = 0 := by linarith
    simp only [if_pos hab]
    have hbt := convex_between ((v2 : ℚ) - v0) ((v4 : ℚ) - v2) (1 / 2) (1 / 2)
      (by norm_num) (by norm_num) (by norm_num)
    refine ⟨1 / 2, 1 / 2, by norm_num, by norm_num, by norm_num, rfl,
      fun _ => ⟨rfl, rfl⟩, fun h => absurd hab h, ?_, ?_, hbt.1, hbt.2⟩
    · intro h
      rw [ha0, hb0] at h
      exact absurd h (lt_irrefl _)
    · intro h
      rw [ha0, hb0] at h
      exact absurd h (lt_irrefl _)
  · have hpos : 0 < a + b := lt_of_le_of_ne (add_nonneg ha hb) (Ne.symm hab)
    simp only [if_neg hab]
    have hp : 0 ≤ a / (a + b) := div_nonneg ha (le_of_lt hpos)
    have hq : 0 ≤ b / (a + b) := div_nonneg hb (le_of_lt hpos)
    have hpq : a / (a + b) + b / (a + b) = 1 := by
      rw [← add_div, div_self hab]
    have hbt := convex_between ((v2 : ℚ) - v0) ((v4 : ℚ) - v2) _ _ hp hq hpq
    refine ⟨a / (a + b), b / (a + b), hp, hq, hpq, rfl,
      fun h => absurd h hab, fun _ => ⟨rfl, rfl⟩, ?_, ?_, hbt.1, hbt.2⟩
    · intro h
      exact div_lt_div_of_pos_right h hpos
    · intro h
      exact div_lt_div_of_pos_right h hpos

theorem C19_blend_is_convex_combination_witness :
    ∃ p q : ℚ, 0 ≤ p ∧ 0 ≤ q ∧ p + q = 1 ∧
      LocalFiniteDifferencesPrimesense 1 2 3 10 5
        = q * (((3 : Nat) : ℚ) - (1 : Nat)) + p * (((5 : Nat) : ℚ) - (3 : Nat)) ∧
      (abs (((3 : Nat) : ℚ) + (1 : Nat) - 2 * (2 : Nat))
          + abs (((5 : Nat) : ℚ) + (3 : Nat) - 2 * (10 : Nat)) = 0 →
        p = 1 / 2 ∧ q = 1 / 2) ∧
      (abs (((3 : Nat) : ℚ) + (1 : Nat) - 2 * (2 : Nat))
          + abs (((5 : Nat) : ℚ) + (3 : Nat) - 2 * (10 : Nat)) ≠ 0 →
        p = abs (((3 : Nat) : ℚ) + (1 : Nat) - 2 * (2 : Nat)) /
            (abs (((3 : Nat) : ℚ) + (1 : Nat) - 2 * (2 : Nat))
              + abs (((5 : Nat) : ℚ) + (3 : Nat) - 2 * (10 : Nat))) ∧
        q = abs (((5 : Nat) : ℚ) + (3 : Nat) - 2 * (10 : Nat)) /
            (abs (((3 : Nat) : ℚ) + (1 : Nat) - 2 * (2 : Nat))
              + abs (((5 : Nat) : ℚ) + (3 : Nat) - 2 * (10 : Nat)))) ∧
      (abs (((5 : Nat) : ℚ) + (3 : Nat) - 2 * (10 : Nat))
          < abs (((3 : Nat) : ℚ) + (1 : Nat) - 2 * (2 : Nat)) → q < p) ∧
      (abs (((3 : Nat) : ℚ) + (1 : Nat) - 2 * (2 : Nat))
          < abs (((5 : Nat) : ℚ) + (3 : Nat) - 2 * (10 : Nat)) → p < q) ∧
      min (((3 : Nat) : ℚ) - (1 : Nat)) (((5 : Nat) : ℚ) - (3 : Nat))
        ≤ LocalFiniteDifferencesPrimesense 1 2 3 10 5 ∧
      LocalFiniteDifferencesPrimesense 1 2 3 10 5
        ≤ max (((3 : Nat) : ℚ) - (1 : Nat)) (((5 : Nat) : ℚ) - (3 : Nat)) :=
  C19_blend_is_convex_combination 1 2 3 10 5 (by decide) (by decide) (by decide)
    (by decide) (by decide)

/-! ### Density normalisation with a non-zero total -/

theorem foldl_add_fin (ds : List ℚ) (acc : ℚ) :
    (ds.map FVal.fin).foldl FVal.add (FVal.fin acc) = FVal.fin (acc + ds.sum) := by
  induction ds generalizing acc with
  | nil => simp
  | cons d ds ih =>
    simp only [List.map_cons, List.foldl_cons, FVal.add, List.sum_cons]
    rw [ih, add_assoc]

theorem totalDensity_fin (ds : List ℚ) :
    totalDensity (ds.map FVal.fin) = FVal.fin ds.sum := by
  unfold totalDensity
  rw [foldl_add_fin, zero_add]

theorem normaliseDensity_fin (N : Nat) (hN : 0 < N) (ds : List ℚ) (hS : ds.sum ≠ 0) :
    normaliseDensity N (ds.map FVal.fin) =
      (ds.map (fun d => d * ((N : ℚ) / ds.sum))).map FVal.fin := by
  unfold normaliseDensity densityScaleFactor
  rw [if_pos hN, totalDensity_fin]
  simp only [FVal.div, if_neg hS, List.map_map]
  apply List.map_congr_left
  intro d _
  simp [FVal.mul]

/-- C11: for a density field with non-zero total `S` and a target count
`N > 0`, every density is multiplied by `N/S` and the densities then sum to
`N`, in exact arithmetic; `P >= 1` pixels of density 2 with target 10 sum to
10; with target count 0 the densities are left unchanged. -/
theorem C11_normalised_density_sums_to_target (N : Nat) (hN : 0 < N) (ds : List ℚ)
    (hS : ds.sum ≠ 0) :
    normaliseDensity N (ds.map FVal.fin) =
      (ds.map (fun d => d * ((N : ℚ) / ds.sum))).map FVal.fin ∧
    totalDensity (normaliseDensity N (ds.map FVal.fin)) = FVal.fin (N : ℚ) ∧
    (∀ P : Nat, totalDensity (normaliseDensity 10
      ((List.replicate (P + 1) (2 : ℚ)).map FVal.fin)) = FVal.fin 10) ∧
    (∀ density : List FVal, normaliseDensity 0 density = density) := by
  have hsum : ∀ (M : Nat) (es : List ℚ), 0 < M → es.sum ≠ 0 →
      totalDensity (normaliseDensity M (es.map FVal.fin)) = FVal.fin (M : ℚ) := by
    intro M es hM hes
    rw [normaliseDensity_fin M hM es hes, totalDensity_fin, List.sum_map_mul_right]
    congr 1
    have hid : List.map (fun d : ℚ => d) es = es := by simp
    rw [hid]
    field_simp
  refine ⟨normaliseDensity_fin N hN ds hS, hsum N ds hN hS, ?_, fun _ => rfl⟩
  intro P
  have h2 : (List.replicate (P + 1) (2 : ℚ)).sum ≠ 0 := by
    rw [List.sum_replicate, nsmul_eq_mul]
    have : (0 : ℚ) < ((P + 1 : Nat) : ℚ) := by exact_mod_cast Nat.succ_pos P
    positivity
  have := hsum 10 _ (by decide) h2
  simpa using this

theorem C11_normalised_density_sums_to_target_witness :
    normaliseDensity 10 ([2, 2, 4].map FVal.fin) =
      (([2, 2, 4] : List ℚ).map
        (fun d => d * (((10 : Nat) : ℚ) / ([2, 2, 4] : List ℚ).sum))).map FVal.fin ∧
    totalDensity (normaliseDensity 10 ([2, 2, 4].map FVal.fin)) = FVal.fin ((10 : Nat) : ℚ) ∧
    (∀ P : Nat, totalDensity (normaliseDensity 10
      ((List.replicate (P + 1) (2 : ℚ)).map FVal.fin)) = FVal.fin 10) ∧
    (∀ density : List FVal, normaliseDensity 0 density = density) :=
  C11_normalised_density_sums_to_target 10 (by decide) [2, 2, 4] (by norm_num)

/-! ### Distance metric, normals and density -/

/-! ### Rounding to single precision -/

theorem roundEven_of_near (m : ℚ) (k : ℤ) (h1 : (k : ℚ) - 1 / 2 < m) (h2 : m < (k : ℚ) + 1 / 2) :
    roundEven m = k := by
  unfold roundEven
  simp only
  by_cases hk : (k : ℚ) ≤ m
  · have hf : ⌊m⌋ = k := Int.floor_eq_iff.mpr ⟨hk, by linarith⟩
    rw [hf, if_pos (by linarith)]
  · have hf : ⌊m⌋ = k - 1 := Int.floor_eq_iff.mpr ⟨by push_cast; linarith, by push_cast; linarith⟩
    rw [hf]
    have h3 : ¬ (m - ((k - 1 : ℤ) : ℚ) < 1 / 2) := by push_cast; linarith
    have h4 : (1 : ℚ) / 2 < m - ((k - 1 : ℤ) : ℚ) := by push_cast; linarith
    rw [if_neg h3, if_pos h4]
    ring

theorem log2_eq {q : ℚ} {e : ℤ} (h1 : (2 : ℚ) ^ e ≤ abs q) (h2 : abs q < (2 : ℚ) ^ (e + 1)) :
    Int.log 2 (abs q) = e := by
  have hpos : 0 < abs q := lt_of_lt_of_le (by positivity) h1
  have h3 := Int.zpow_log_le_self (b := 2) (by norm_num) hpos
  have h4 := Int.lt_zpow_succ_log_self (b := 2) (by norm_num) (abs q)
  simp only [Nat.cast_ofNat] at h3 h4
  have h5 : (2 : ℚ) ^ (Int.log 2 (abs q)) < (2 : ℚ) ^ (e + 1) := lt_of_le_of_lt h3 h2
  have h6 : (2 : ℚ) ^ e < (2 : ℚ) ^ (Int.log 2 (abs q) + 1) := lt_of_le_of_lt h1 h4
  have h7 := (zpow_lt_zpow_iff_right₀ (by norm_num : (1 : ℚ) < 2)).mp h5
  have h8 := (zpow_lt_zpow_iff_right₀ (by norm_num : (1 : ℚ) < 2)).mp h6
  omega

/-- Rounding of a number in the binade `2^e <= |q| < 2^(e+1)`, `e >= -126`,
below the overflow bound: the multiple `k * 2^(e-23)` nearest to it. -/
theorem round32_eq (q : ℚ) (e k : ℤ) (h1 : (2 : ℚ) ^ e ≤ abs q)
    (h2 : abs q < (2 : ℚ) ^ (e + 1)) (he : -126 ≤ e)
    (hT : abs q < 340282356779733661637539395458142568448)
    (hk1 : (k : ℚ) - 1 / 2 < q / (2 : ℚ) ^ (e - 23))
    (hk2 : q / (2 : ℚ) ^ (e - 23) < (k : ℚ) + 1 / 2) :
    round32 q = FVal.fin ((k : ℚ) * (2 : ℚ) ^ (e - 23)) := by
  unfold round32 ulp32
  rw [if_neg (not_le.mpr hT), log2_eq h1 h2, max_eq_left he, roundEven_of_near _ k hk1 hk2]

theorem round32_zero : round32 0 = FVal.fin 0 := by
  unfold round32
  have h : roundEven (0 / ulp32 0) = 0 := roundEven_of_near _ 0 (by norm_num) (by norm_num)
  rw [if_neg (by norm_num), h]
  simp

theorem round32_one : round32 1 = FVal.fin 1 := by
  have h := round32_eq 1 0 8388608 (by norm_num) (by norm_num) (by norm_num) (by norm_num)
    (by norm_num) (by norm_num)
  rw [h]
  congr 1
  norm_num

/-- A result of magnitude below `2^(-150)` rounds to 0. -/
theorem round32_underflow (q : ℚ) (h : abs q < (2 : ℚ) ^ (-150 : ℤ)) :
    round32 q = FVal.fin 0 := by
  by_cases hq : q = 0
  · rw [hq]
    exact round32_zero
  · have hpos : 0 < abs q := abs_pos.mpr hq
    have hlog : Int.log 2 (abs q) < -150 := by
      have h3 := Int.zpow_log_le_self (b := 2) (by norm_num) hpos
      simp only [Nat.cast_ofNat] at h3
      exact (zpow_lt_zpow_iff_right₀ (by norm_num : (1 : ℚ) < 2)).mp (lt_of_le_of_lt h3 h)
    have hsmall : abs q < 340282356779733661637539395458142568448 :=
      lt_trans h (by norm_num)
    have hu : ulp32 q = (2 : ℚ) ^ (-149 : ℤ) := by
      unfold ulp32
      rw [max_eq_right (by omega)]
      norm_num
    have hm : abs (q / (2 : ℚ) ^ (-149 : ℤ)) < 1 / 2 := by
      rw [abs_div, abs_of_pos (by positivity : (0 : ℚ) < (2 : ℚ) ^ (-149 : ℤ)),
        div_lt_iff₀ (by positivity)]
      calc abs q < (2 : ℚ) ^ (-150 : ℤ) := h
        _ = 1 / 2 * (2 : ℚ) ^ (-149 : ℤ) := by norm_num
    have hr : roundEven (q / (2 : ℚ) ^ (-149 : ℤ)) = 0 := by
      have := abs_lt.mp hm
      exact roundEven_of_near _ 0 (by push_cast; linarith [this.1]) (by push_cast; linarith [this.2])
    unfold round32
    rw [if_neg (not_le.mpr hsmall), hu, hr]
    simp

theorem round32_fin_of_le_one (q : ℚ) (h : abs q ≤ 1) : ∃ r, round32 q = FVal.fin r := by
  unfold round32
  rw [if_neg (by
    rw [not_le]
    exact lt_of_le_of_lt h (by norm_num))]
  exact ⟨_, rfl⟩

theorem F32_sub_self (x : ℚ) : F32.sub (FVal.fin x) (FVal.fin x) = FVal.fin 0 := by
  simp only [F32.sub, FVal.neg, FVal.add, roundF, add_neg_cancel, round32_zero]

theorem F32_mul_zero (x : ℚ) : F32.mul (FVal.fin x) (FVal.fin 0) = FVal.fin 0 := by
  simp only [F32.mul, FVal.mul, roundF, mul_zero, round32_zero]

theorem F32_zero_mul (x : ℚ) : F32.mul (FVal.fin 0) (FVal.fin x) = FVal.fin 0 := by
  simp only [F32.mul, FVal.mul, roundF, zero_mul, round32_zero]

theorem F32_zero_add_zero : F32.add (FVal.fin 0) (FVal.fin 0) = FVal.fin 0 := by
  simp only [F32.add, FVal.add, roundF, add_zero, round32_zero]

theorem F32_one_sub_fin (c : ℚ) (h0 : 0 ≤ c) (h1 : c ≤ 1) :
    ∃ r, F32.sub (FVal.fin 1) (FVal.fin c) = FVal.fin r := by
  simp only [F32.sub, FVal.neg, FVal.add, roundF]
  apply round32_fin_of_le_one
  rw [abs_le]
  constructor <;> linarith

theorem F32_squaredNorm_vsub_self (v : Vec3 ℚ) :
    F32.squaredNorm (F32.vsub v.toF32 v.toF32) = FVal.fin 0 := by
  simp only [F32.squaredNorm, F32.dot, F32.vsub, Vec3.toF32, F32_sub_self, F32_mul_zero,
    F32_zero_add_zero]

theorem FVal_nan_add (x : FVal) : FVal.add FVal.nan x = FVal.nan := by
  cases x <;> rfl

theorem round32_val (q v : ℚ) (e k : ℤ) (h1 : (2 : ℚ) ^ e ≤ abs q)
    (h2 : abs q < (2 : ℚ) ^ (e + 1)) (he : -126 ≤ e)
    (hT : abs q < 340282356779733661637539395458142568448)
    (hk1 : (k : ℚ) - 1 / 2 < q / (2 : ℚ) ^ (e - 23))
    (hk2 : q / (2 : ℚ) ^ (e - 23) < (k : ℚ) + 1 / 2)
    (hv : (k : ℚ) * (2 : ℚ) ^ (e - 23) = v) : round32 q = FVal.fin v := by
  rw [round32_eq q e k h1 h2 he hT hk1 hk2, hv]

/-- The `float` dot product of the normal of `tiltedPixel` with itself is
`1 - 2^(-24)`, and the metric of `tiltedPixel` against itself at compactness
1/2, normal weight 1/2 and radius 1 is `2^(-26)`. -/
theorem tilted_normal_distance :
    F32.dot tiltedPixel.normal tiltedPixel.normal = FVal.fin (16777215 / 16777216) ∧
    SuperpixelsDaspDistance (FVal.fin (1 / 2)) (FVal.fin (1 / 2)) (FVal.fin 1)
      tiltedPixel tiltedPixel = FVal.fin (1 / 67108864) := by
  have hm1 : F32.mul (FVal.fin (9686330 / 16777216)) (FVal.fin (9686330 / 16777216))
      = FVal.fin (5592405 / 16777216) := by
    simp only [F32.mul, FVal.mul, roundF]
    exact round32_val _ _ (-2) 11184810 (by norm_num [abs_of_pos]) (by norm_num [abs_of_pos])
      (by norm_num) (by norm_num [abs_of_pos]) (by norm_num) (by norm_num) (by norm_num)
  have hm2 : F32.mul (FVal.fin (-(9686330 / 16777216))) (FVal.fin (-(9686330 / 16777216)))
      = FVal.fin (5592405 / 16777216) := by
    simp only [F32.mul, FVal.mul, roundF]
    exact round32_val _ _ (-2) 11184810 (by norm_num [abs_of_pos]) (by norm_num [abs_of_pos])
      (by norm_num) (by norm_num [abs_of_pos]) (by norm_num) (by norm_num) (by norm_num)
  have ha1 : F32.add (FVal.fin (5592405 / 16777216)) (FVal.fin (5592405 / 16777216))
      = FVal.fin (5592405 / 8388608) := by
    simp only [F32.add, FVal.add, roundF]
    exact round32_val _ _ (-1) 11184810 (by norm_num [abs_of_pos]) (by norm_num [abs_of_pos])
      (by norm_num) (by norm_num [abs_of_pos]) (by norm_num) (by norm_num) (by norm_num)
  have ha2 : F32.add (FVal.fin (5592405 / 8388608)) (FVal.fin (5592405 / 16777216))
      = FVal.fin (16777215 / 16777216) := by
    simp only [F32.add, FVal.add, roundF]
    exact round32_val _ _ (-1) 16777215 (by norm_num [abs_of_pos]) (by norm_num [abs_of_pos])
      (by norm_num) (by norm_num [abs_of_pos]) (by norm_num) (by norm_num) (by norm_num)
  have hdot : F32.dot tiltedPixel.normal tiltedPixel.normal
      = FVal.fin (16777215 / 16777216) := by
    simp only [F32.dot, tiltedPixel, Vec3.toF32, hm1, hm2, ha1, ha2]
  have hnd : F32.sub (FVal.fin 1) (FVal.fin (16777215 / 16777216))
      = FVal.fin (1 / 16777216) := by
    simp only [F32.sub, FVal.neg, FVal.add, roundF]
    exact round32_val _ _ (-24) 8388608 (by norm_num [abs_of_pos]) (by norm_num [abs_of_pos])
      (by norm_num) (by norm_num [abs_of_pos]) (by norm_num) (by norm_num) (by norm_num)
  have hw : F32.mul (FVal.fin (1 / 2)) (FVal.fin (1 / 16777216))
      = FVal.fin (1 / 33554432) := by
    simp only [F32.mul, FVal.mul, roundF]
    exact round32_val _ _ (-25) 8388608 (by norm_num [abs_of_pos]) (by norm_num [abs_of_pos])
      (by norm_num) (by norm_num [abs_of_pos]) (by norm_num) (by norm_num) (by norm_num)
  have hhalf : F32.sub (FVal.fin 1) (FVal.fin (1 / 2)) = FVal.fin (1 / 2) := by
    simp only [F32.sub, FVal.neg, FVal.add, roundF]
    exact round32_val _ _ (-1) 8388608 (by norm_num [abs_of_pos]) (by norm_num [abs_of_pos])
      (by norm_num) (by norm_num [abs_of_pos]) (by norm_num) (by norm_num) (by norm_num)
  have hs : F32.add (FVal.fin 0) (FVal.fin (1 / 33554432)) = FVal.fin (1 / 33554432) := by
    simp only [F32.add, FVal.add, roundF]
    exact round32_val _ _ (-25) 8388608 (by norm_num [abs_of_pos]) (by norm_num [abs_of_pos])
      (by norm_num) (by norm_num [abs_of_pos]) (by norm_num) (by norm_num) (by norm_num)
  have hc : F32.mul (FVal.fin (1 / 2)) (FVal.fin (1 / 33554432))
      = FVal.fin (1 / 67108864) := by
    simp only [F32.mul, FVal.mul, roundF]
    exact round32_val _ _ (-26) 8388608 (by norm_num [abs_of_pos]) (by norm_num [abs_of_pos])
      (by norm_num) (by norm_num [abs_of_pos]) (by norm_num) (by norm_num) (by norm_num)
  have hs2 : F32.add (FVal.fin 0) (FVal.fin (1 / 67108864)) = FVal.fin (1 / 67108864) := by
    simp only [F32.add, FVal.add, roundF]
    exact round32_val _ _ (-26) 8388608 (by norm_num [abs_of_pos]) (by norm_num [abs_of_pos])
      (by norm_num) (by norm_num [abs_of_pos]) (by norm_num) (by norm_num) (by norm_num)
  have hr1 : F32.mul (FVal.fin 1) (FVal.fin 1) = FVal.fin 1 := by
    simp only [F32.mul, FVal.mul, roundF, mul_one, round32_one]
  have hr2 : F32.div (FVal.fin 1) (FVal.fin 1) = FVal.fin 1 := by
    simp [F32.div, FVal.div, roundF, round32_one]
  refine ⟨hdot, ?_⟩
  unfold SuperpixelsDaspDistance distanceLambda NormalDistance
  rw [hdot]
  have hw0 : F32.squaredNorm (F32.vsub tiltedPixel.world tiltedPixel.world) = FVal.fin 0 :=
    F32_squaredNorm_vsub_self _
  have hc0 : F32.squaredNorm (F32.vsub tiltedPixel.color tiltedPixel.color) = FVal.fin 0 :=
    F32_squaredNorm_vsub_self _
  rw [hw0, hc0, hr1, hr2, hnd, hw, hhalf, F32_mul_zero, F32_zero_mul, hs, hc, hs2]

/-- C12 (as stated, refuted): with compactness 1/2, normal weight 1/4, the
radius `2^(-100) > 0` and a superpixel and a pixel that both are `samplePixel`
(unit normal (0,0,-1)), `radius*radius` underflows to 0, `RADIUS_SCL` is
`+inf`, and the metric returns `0 * inf`, which is NaN and not 0. -/
theorem C12_tiny_radius_gives_nan :
    F32.mul (FVal.fin ((2 : ℚ) ^ (-100 : ℤ))) (FVal.fin ((2 : ℚ) ^ (-100 : ℤ))) = FVal.fin 0 ∧
    F32.div (FVal.fin 1)
      (F32.mul (FVal.fin ((2 : ℚ) ^ (-100 : ℤ))) (FVal.fin ((2 : ℚ) ^ (-100 : ℤ))))
      = FVal.pinf ∧
    SuperpixelsDaspDistance (FVal.fin (1 / 2)) (FVal.fin (1 / 4))
      (FVal.fin ((2 : ℚ) ^ (-100 : ℤ))) samplePixel samplePixel = FVal.nan := by
  have hsq : F32.mul (FVal.fin ((2 : ℚ) ^ (-100 : ℤ))) (FVal.fin ((2 : ℚ) ^ (-100 : ℤ)))
      = FVal.fin 0 := by
    simp only [F32.mul, FVal.mul, roundF]
    apply round32_underflow
    rw [abs_of_pos (by positivity), ← zpow_add₀ (by norm_num : (2 : ℚ) ≠ 0)]
    exact (zpow_lt_zpow_iff_right₀ (by norm_num : (1 : ℚ) < 2)).mpr (by norm_num)
  have hscl : F32.div (FVal.fin 1)
      (F32.mul (FVal.fin ((2 : ℚ) ^ (-100 : ℤ))) (FVal.fin ((2 : ℚ) ^ (-100 : ℤ))))
      = FVal.pinf := by
    rw [hsq]
    norm_num [F32.div, FVal.div, FVal.inf, roundF]
  refine ⟨hsq, hscl, ?_⟩
  unfold SuperpixelsDaspDistance distanceLambda
  rw [hscl]
  have hw : F32.squaredNorm (F32.vsub samplePixel.world samplePixel.world) = FVal.fin 0 :=
    F32_squaredNorm_vsub_self _
  rw [hw, F32_mul_zero]
  have hnan : F32.mul (FVal.fin 0) FVal.pinf = FVal.nan := by
    norm_num [F32.mul, FVal.mul, roundF]
  rw [hnan]
  simp only [F32.add, FVal_nan_add, roundF]

/-- C12 (amended): in `float` arithmetic, for compactness and normal weight in
[0,1], a radius for which `RADIUS_SCL = 1/(radius*radius)` is finite, and a
superpixel and a pixel with the same finite world point, the same finite color
and the same normal whose `float` dot product with itself is exactly 1, the
distance metric returns exactly 0. -/
theorem C12_distance_zero_in_float (c w : ℚ) (hc0 : 0 ≤ c) (hc1 : c ≤ 1) (hw0 : 0 ≤ w)
    (hw1 : w ≤ 1) (radius : FVal) (r : ℚ)
    (hr : F32.div (FVal.fin 1) (F32.mul radius radius) = FVal.fin r)
    (color world : Vec3 ℚ) (normal : Vec3 FVal)
    (hn : F32.dot normal normal = FVal.fin 1) :
    SuperpixelsDaspDistance (FVal.fin c) (FVal.fin w) radius
      { color := color.toF32, world := world.toF32, normal := normal }
      { color := color.toF32, world := world.toF32, normal := normal } = FVal.fin 0 := by
  obtain ⟨c1, hc⟩ := F32_one_sub_fin c hc0 hc1
  obtain ⟨w1, hw⟩ := F32_one_sub_fin w hw0 hw1
  unfold SuperpixelsDaspDistance distanceLambda NormalDistance
  simp only [hr, hn, hc, hw, F32_squaredNorm_vsub_self, F32_mul_zero, F32_zero_mul,
    F32_sub_self, F32_zero_add_zero]

theorem C12_distance_zero_in_float_witness :
    SuperpixelsDaspDistance (FVal.fin (1 / 2)) (FVal.fin (1 / 4)) (FVal.fin 1)
      samplePixel samplePixel = FVal.fin 0 :=
  C12_distance_zero_in_float (1 / 2) (1 / 4) (by norm_num) (by norm_num) (by norm_num)
    (by norm_num) (FVal.fin 1) 1
    (by simp [F32.div, F32.mul, FVal.div, FVal.mul, roundF, round32_one])
    { x := 1, y := 0, z := 1 } { x := 2, y := 3, z := 4 }
    (Vec3.toF32 { x := 0, y := 0, z := -1 })
    (by simp [F32.dot, F32.add, F32.mul, FVal.add, FVal.mul, roundF, Vec3.toF32,
      round32_one, round32_zero])

/-- The result of `NormalFromGradient` is the scaled vector `(gx, gy, -1)` or its
negative. -/
theorem normalFromGradient_cases (gx gy : ℝ) (position : Vec3 ℝ) :
    NormalFromGradient Real.sqrt (gx, gy) position =
        Vec3.smul (1 / Real.sqrt (1 + gx * gx + gy * gy)) ⟨gx, gy, -1⟩ ∨
    NormalFromGradient Real.sqrt (gx, gy) position =
        Vec3.smul (-1) (Vec3.smul (1 / Real.sqrt (1 + gx * gx + gy * gy)) ⟨gx, gy, -1⟩) := by
  unfold NormalFromGradient
  simp only
  split_ifs
  · right
    simp [Vec3.smul]
  · left
    simp [Vec3.smul]

/-- C15: in real arithmetic `NormalFromGradient` returns a vector `n` of unit
length that is plus or minus `(gx, gy, -1)` scaled to unit length and satisfies
`n . (-position) >= 0`. -/
theorem C15_normal_unit_towards_camera (gx gy : ℝ) (position : Vec3 ℝ) :
    (NormalFromGradient Real.sqrt (gx, gy) position).dot
      (NormalFromGradient Real.sqrt (gx, gy) position) = 1 ∧
    (NormalFromGradient Real.sqrt (gx, gy) position =
        Vec3.smul (1 / Real.sqrt ((⟨gx, gy, -1⟩ : Vec3 ℝ).dot ⟨gx, gy, -1⟩)) ⟨gx, gy, -1⟩ ∨
      NormalFromGradient Real.sqrt (gx, gy) position =
        Vec3.smul (-1)
          (Vec3.smul (1 / Real.sqrt ((⟨gx, gy, -1⟩ : Vec3 ℝ).dot ⟨gx, gy, -1⟩)) ⟨gx, gy, -1⟩)) ∧
    0 ≤ (NormalFromGradient Real.sqrt (gx, gy) position).dot (Vec3.smul (-1) position) := by
  have hpos : 0 < 1 + gx * gx + gy * gy := by nlinarith [mul_self_nonneg gx, mul_self_nonneg gy]
  have hs : 0 < Real.sqrt (1 + gx * gx + gy * gy) := Real.sqrt_pos.mpr hpos
  have hsq : Real.sqrt (1 + gx * gx + gy * gy) * Real.sqrt (1 + gx * gx + gy * gy)
      = 1 + gx * gx + gy * gy := Real.mul_self_sqrt (le_of_lt hpos)
  have hdot : (⟨gx, gy, -1⟩ : Vec3 ℝ).dot ⟨gx, gy, -1⟩ = 1 + gx * gx + gy * gy := by
    simp only [Vec3.dot]
    ring
  refine ⟨?_, ?_, ?_⟩
  · rcases normalFromGradient_cases gx gy position with h | h <;> rw [h] <;>
      simp only [Vec3.dot, Vec3.smul] <;> field_simp <;> nlinarith [hsq]
  · rw [hdot]
    exact normalFromGradient_cases gx gy position
  · unfold NormalFromGradient
    simp only
    split_ifs with h
    · simp only [Vec3.dot, Vec3.smul] at h ⊢
      nlinarith [h]
    · exact not_lt.mp h

/-- C16 (as stated, refuted): for depth 1, zero gradient, radius 1 and focal
length 1 the code returns `1/3.1415`, which is not `1/pi`. -/
theorem C16_density_differs_from_pi_formula :
    Density Real.sqrt (1 : ℝ) (0, 0) 1 1 ≠
      ((1 : ℝ) / (1 * 1)) ^ 2 / Real.pi * Real.sqrt ((0 : ℝ) ^ 2 + (0 : ℝ) ^ 2 + 1) := by
  unfold Density
  have hpi := Real.pi_gt_d6
  have hpos := Real.pi_pos
  simp only [mul_zero, add_zero, zero_add, Real.sqrt_one, mul_one, div_one, one_pow, ne_eq,
    OfNat.ofNat_ne_zero, not_false_eq_true, zero_pow]
  intro h
  have h2 : (3.1415 : ℝ) = Real.pi := by
    field_simp at h
    linarith
  rw [← h2] at hpi
  norm_num at hpi

/-- C16 (amended): in real arithmetic `Density` returns exactly
`(depth/(radius*focal))^2 / 3.1415 * sqrt(|gradient|^2 + 1)`, with the constant
3.1415 where the formula of the claim has pi; this is the value of the claim's
formula times `pi/3.1415`, a factor between 1 and 1.00003. -/
theorem C16_density_formula (depth radius focal_px : ℝ) (gradient : ℝ × ℝ) :
    Density Real.sqrt depth gradient radius focal_px =
      (depth / (radius * focal_px)) ^ 2 / 3.1415
        * Real.sqrt (gradient.1 ^ 2 + gradient.2 ^ 2 + 1) ∧
    Density Real.sqrt depth gradient radius focal_px =
      ((depth / (radius * focal_px)) ^ 2 / Real.pi
        * Real.sqrt (gradient.1 ^ 2 + gradient.2 ^ 2 + 1)) * (Real.pi / 3.1415) ∧
    1 < Real.pi / 3.1415 ∧ Real.pi / 3.1415 < 1.00003 := by
  have hpi1 := Real.pi_gt_d6
  have hpi2 := Real.pi_lt_d6
  have hpos := Real.pi_pos
  refine ⟨?_, ?_, ?_, ?_⟩
  · unfold Density
    simp only [pow_two]
  · unfold Density
    simp only [pow_two]
    have hgen : ∀ X S : ℝ, X / 3.1415 * S = X / Real.pi * S * (Real.pi / 3.1415) := by
      intro X S
      have hne : Real.pi ≠ 0 := ne_of_gt hpos
      field_simp
    exact hgen _ _
  · rw [lt_div_iff₀ (by norm_num)]
    linarith
  · rw [div_lt_iff₀ (by norm_num)]
    norm_num
    linarith

/-! ### Reads of the depth gradient -/

theorem read_some (depth : DepthImage) {x y : Nat} (hx : x < depth.width)
    (hy : y < depth.height) : depth.read x y = some (depth.pix x y) := by
  unfold DepthImage.read
  rw [if_pos ⟨hx, hy⟩]

theorem windowWidth_lt {rounded : Nat} (h : rounded < 4294967296) :
    windowWidth rounded < 4294967296 := by
  unfold windowWidth uadd
  simp only
  split_ifs <;> omega

theorem windowWidth_even {w : Nat} (h2 : w % 2 = 0) (h4 : 4 ≤ w) : windowWidth w = w := by
  unfold windowWidth
  have hm : max w 4 = w := max_eq_left h4
  simp only [hm]
  have : (w % 2 == 1) = false := by simp [h2]
  rw [this]
  rfl

/-- C20: for a pixel `(j,i)` inside a depth image and every window width `w`
that `LocalDepthGradient` computes, with the subtractions of the border test
wrapping modulo `2^32`, either the border test returns the zero gradient before
any neighbour is read, or all eight neighbour positions lie inside the image
and the function returns; every even `w >= 4` is such a window width. -/
theorem C20_neighbour_reads_inside (depth : DepthImage) (j i rounded : Nat) (scale : ℚ)
    (hW : depth.width < 4294967296) (hH : depth.height < 4294967296)
    (hj : j < depth.width) (hi : i < depth.height) (hr : rounded < 4294967296) :
    ((borderTest depth j i (windowWidth rounded) = true ∧
        LocalDepthGradient depth j i rounded scale = some (0, 0)) ∨
      (borderTest depth j i (windowWidth rounded) = false ∧
        (∀ xy ∈ neighbourReads j i (windowWidth rounded),
          xy.1 < depth.width ∧ xy.2 < depth.height) ∧
        ∃ g, LocalDepthGradient depth j i rounded scale = some g)) ∧
    (∀ w, w % 2 = 0 → 4 ≤ w → windowWidth w = w) := by
  refine ⟨?_, fun w h2 h4 => windowWidth_even h2 h4⟩
  have hw := windowWidth_lt hr
  generalize hwd : windowWidth rounded = w at hw
  by_cases hb : borderTest depth j i w = true
  · left
    refine ⟨hb, ?_⟩
    unfold LocalDepthGradient
    simp only [read_some depth hj hi, Option.bind_eq_bind, Option.some_bind, hwd, hb, if_true,
      Option.pure_def]
  · right
    have hb2 : borderTest depth j i w = false := by simpa using hb
    have hfacts : w ≤ i ∧ i + w < depth.height ∧ w ≤ j ∧ j + w < depth.width := by
      unfold borderTest usub at hb2
      simp only [Bool.or_eq_false_iff, decide_eq_false_iff_not, not_lt, not_le] at hb2
      obtain ⟨⟨⟨h1, h2⟩, h3⟩, h4⟩ := hb2
      split_ifs at h2 h4 <;> omega
    obtain ⟨h1, h2, h3, h4⟩ := hfacts
    have e1 : usub j w = j - w := by unfold usub; split_ifs <;> omega
    have e2 : usub j (w / 2) = j - w / 2 := by unfold usub; split_ifs <;> omega
    have e3 : uadd j (w / 2) = j + w / 2 := by unfold uadd; split_ifs <;> omega
    have e4 : uadd j w = j + w := by unfold uadd; split_ifs <;> omega
    have e5 : usub i w = i - w := by unfold usub; split_ifs <;> omega
    have e6 : usub i (w / 2) = i - w / 2 := by unfold usub; split_ifs <;> omega
    have e7 : uadd i (w / 2) = i + w / 2 := by unfold uadd; split_ifs <;> omega
    have e8 : uadd i w = i + w := by unfold uadd; split_ifs <;> omega
    refine ⟨hb2, ?_, ?_⟩
    · intro xy hxy
      simp only [neighbourReads, e1, e2, e3, e4, e5, e6, e7, e8, List.mem_cons,
        List.mem_singleton, List.not_mem_nil, or_false] at hxy
      rcases hxy with rfl | rfl | rfl | rfl | rfl | rfl | rfl | rfl <;>
        exact ⟨by simp only; omega, by simp only; omega⟩
    · unfold LocalDepthGradient
      simp only [read_some depth hj hi, Option.bind_eq_bind, Option.some_bind, hwd, hb2,
        Bool.false_eq_true, if_false, e1, e2, e3, e4, e5, e6, e7, e8,
        read_some depth (show j - w < depth.width by omega) hi,
        read_some depth (show j - w / 2 < depth.width by omega) hi,
        read_some depth (show j + w / 2 < depth.width by omega) hi,
        read_some depth (show j + w < depth.width by omega) hi,
        read_some depth hj (show i - w < depth.height by omega),
        read_some depth hj (show i - w / 2 < depth.height by omega),
        read_some depth hj (show i + w / 2 < depth.height by omega),
        read_some depth hj (show i + w < depth.height by omega), Option.pure_def]
      exact ⟨_, rfl⟩

theorem C20_neighbour_reads_inside_witness :
    ((borderTest rampDepth 10 10 (windowWidth 4) = true ∧
        LocalDepthGradient rampDepth 10 10 4 1 = some (0, 0)) ∨
      (borderTest rampDepth 10 10 (windowWidth 4) = false ∧
        (∀ xy ∈ neighbourReads 10 10 (windowWidth 4),
          xy.1 < rampDepth.width ∧ xy.2 < rampDepth.height) ∧
        ∃ g, LocalDepthGradient rampDepth 10 10 4 1 = some g)) ∧
    (∀ w, w % 2 = 0 → 4 ≤ w → windowWidth w = w) :=
  C20_neighbour_reads_inside rampDepth 10 10 4 1 (by decide) (by decide) (by decide)
    (by decide) (by decide)

/-! ### Reachable states of the union pass -/

theorem reachable_inv {unique_id : List Int} (hnd : unique_id.Nodup)
    {st : List Vertex × Nat} (h : Reachable unique_id st) :
    ∃ done rt dep,
      PassInv unique_id (buildId2idx unique_id 0 IntMap.empty) done st.1 st.2 rt dep := by
  induction h with
  | init => exact ⟨[], _, _, PassInv.start unique_id _⟩
  | step e _ h1 h2 hstep ih =>
    obtain ⟨done, rt, dep, hP⟩ := ih
    obtain ⟨vs2, c2, rt2, dep2, hs, hP2⟩ :=
      unionStep_inv (tableOk_build unique_id hnd) hP e h1 h2
    rw [hstep] at hs
    simp only [Option.some.injEq] at hs
    subst hs
    exact ⟨_, rt2, dep2, hP2⟩

theorem Forest.parentOf_eq {unique_id : List Int} {vs : List Vertex} {rt dep : Nat → Nat}
    (_h : Forest unique_id vs rt dep) {i : Nat} {v : Vertex} (hv : vs[i]? = some v) :
    parentOf vs i = v.parent := by
  unfold parentOf
  rw [hv]

theorem Forest.iterate_parent {unique_id : List Int} {vs : List Vertex} {rt dep : Nat → Nat}
    (h : Forest unique_id vs rt dep) (d i : Nat) (hi : i < vs.length) (hd : dep i = d) :
    (parentOf vs)^[d] i = rt i := by
  induction d generalizing i with
  | zero =>
    have hv : vs[i]? = some vs[i] := List.getElem?_eq_getElem hi
    by_cases hp : vs[i].parent = i
    · simp [(h.rootCase i _ hv hp).1]
    · have := (h.stepCase i _ hv hp).2
      omega
  | succ d ih =>
    have hv : vs[i]? = some vs[i] := List.getElem?_eq_getElem hi
    by_cases hp : vs[i].parent = i
    · have := (h.rootCase i _ hv hp).2
      omega
    · have h1 := h.stepCase i _ hv hp
      rw [Function.iterate_succ_apply, h.parentOf_eq hv,
        ih _ (h.wf i _ hv).2.2 (by omega), h1.1]

/-- C17: in every state reachable from Init by union steps the parent array is
a forest: from every vertex finitely many parent links lead to a self-parenting
vertex, and `find` returns the index of that root on every vertex index. -/
theorem C17_find_returns_root (unique_id : List Int) (hnd : unique_id.Nodup)
    (st : List Vertex × Nat) (hreach : Reachable unique_id st) :
    ∀ i, i < st.1.length →
      ∃ r k, find i st.1 = some r ∧ r < st.1.length ∧ parentOf st.1 r = r ∧
        (parentOf st.1)^[k] i = r := by
  obtain ⟨done, rt, dep, hP⟩ := reachable_inv hnd hreach
  have hF := hP.forest
  intro i hi
  obtain ⟨rv, hrv, hrp⟩ := hF.rtRoot i hi
  refine ⟨rt i, dep i, hF.find_eq hi, hF.rt_lt hi, ?_, hF.iterate_parent (dep i) i hi rfl⟩
  rw [hF.parentOf_eq hrv]
  exact hrp

theorem C17_find_returns_root_witness :
    ∃ r k, find 1 linkedState.1 = some r ∧ r < linkedState.1.length ∧
      parentOf linkedState.1 r = r ∧ (parentOf linkedState.1)^[k] 1 = r :=
  C17_find_returns_root [2, 4, 6] (by decide) linkedState
    (Reachable.step { v1 := 4, v2 := 6 } Reachable.init (by decide) (by decide) (by decide))
    1 (by decide)

theorem countOf_eq {vs : List Vertex} {i : Nat} {v : Vertex} (hv : vs[i]? = some v) :
    countOf vs i = v.count := by
  unfold countOf
  rw [hv]

theorem parentOf_some {vs : List Vertex} {i : Nat} {v : Vertex} (hv : vs[i]? = some v) :
    parentOf vs i = v.parent := by
  unfold parentOf
  rw [hv]

/-- The loop body on an edge whose endpoints have different roots: the root
whose count is not larger becomes the child of the other, which takes over the
sum of the counts. -/
theorem unionStep_link_detail {unique_id : List Int} {id2idx : IntMap Nat} {done : List Edge}
    {vs : List Vertex} {c : Nat} {rt dep : Nat → Nat}
    (h : PassInv unique_id id2idx done vs c rt dep) (e : Edge) {a b : Nat}
    (ha : id2idx e.v1 = some a) (hb : id2idx e.v2 = some b)
    (hal : a < vs.length) (hbl : b < vs.length) (hab : rt a ≠ rt b) :
    ∃ vs2 child root, unionStep id2idx (vs, c) e = some (vs2, c + 1) ∧
      ((child = rt a ∧ root = rt b) ∨ (child = rt b ∧ root = rt a)) ∧
      countOf vs child ≤ countOf vs root ∧
      parentOf vs2 child = root ∧ parentOf vs2 root = root ∧
      countOf vs2 root = countOf vs root + countOf vs child := by
  have hF := h.forest
  have hfa := hF.find_eq hal
  have hfb := hF.find_eq hbl
  obtain ⟨pa, hra, hpa⟩ := hF.rtRoot a hal
  obtain ⟨pb, hrb, hpb⟩ := hF.rtRoot b hbl
  have hba : ¬ rt b = rt a := fun e1 => hab e1.symm
  by_cases hcmp : pa.count > pb.count
  · refine ⟨(vs.set (rt b) { pb with parent := rt a }).set (rt a)
      { pa with count := pa.count + pb.count }, rt b, rt a, ?_, Or.inr ⟨rfl, rfl⟩, ?_, ?_, ?_, ?_⟩
    · simp only [unionStep, ha, hb, hfa, hfb, hra, hrb, Option.bind_eq_bind, Option.some_bind,
        bne_iff_ne, ne_eq, hab, not_false_eq_true, if_true, if_pos hcmp, Option.pure_def]
      rw [List.getElem?_set_ne hba, hra, List.getElem?_set_self (hF.rt_lt hbl)]
      rfl
    · rw [countOf_eq hra, countOf_eq hrb]
      omega
    · rw [parentOf_some (by rw [link_getElem? vs hrb hra, if_neg hba, if_pos rfl])]
    · rw [parentOf_some (by rw [link_getElem? vs hrb hra, if_pos rfl])]
      exact hpa
    · rw [countOf_eq (by rw [link_getElem? vs hrb hra, if_pos rfl]), countOf_eq hra,
        countOf_eq hrb]
  · refine ⟨(vs.set (rt a) { pa with parent := rt b }).set (rt b)
      { pb with count := pb.count + pa.count }, rt a, rt b, ?_, Or.inl ⟨rfl, rfl⟩, ?_, ?_, ?_, ?_⟩
    · simp only [unionStep, ha, hb, hfa, hfb, hra, hrb, Option.bind_eq_bind, Option.some_bind,
        bne_iff_ne, ne_eq, hab, not_false_eq_true, if_true, if_neg hcmp, Option.pure_def]
      rw [List.getElem?_set_ne hab, hrb, List.getElem?_set_self (hF.rt_lt hal)]
      rfl
    · rw [countOf_eq hra, countOf_eq hrb]
      omega
    · rw [parentOf_some (by rw [link_getElem? vs hra hrb, if_neg hab, if_pos rfl])]
    · rw [parentOf_some (by rw [link_getElem? vs hra hrb, if_pos rfl])]
      exact hpb
    · rw [countOf_eq (by rw [link_getElem? vs hra hrb, if_pos rfl]), countOf_eq hra,
        countOf_eq hrb]

/-- C18: in every state reachable from Init by union steps, the count of each
root is the number of vertices on which `find` returns that root, the counts of
all roots sum to the number of vertices, and the loop body on an edge whose
endpoints have different roots returns a state in which the root whose count
was not larger is the child of the other root, which holds the sum of both
counts. -/
theorem C18_counts_and_union_by_size (unique_id : List Int) (hnd : unique_id.Nodup)
    (st : List Vertex × Nat) (hreach : Reachable unique_id st) :
    (∀ (r : Nat) (v : Vertex), st.1[r]? = some v → v.parent = r →
      v.count = ((Finset.range st.1.length).filter (fun i => find i st.1 = some r)).card) ∧
    Finset.sum ((Finset.range st.1.length).filter (fun r => parentOf st.1 r = r))
      (fun r => countOf st.1 r) = st.1.length ∧
    (∀ (e : Edge) (idx1 idx2 r1 r2 : Nat),
      buildId2idx unique_id 0 IntMap.empty e.v1 = some idx1 →
      buildId2idx unique_id 0 IntMap.empty e.v2 = some idx2 →
      find idx1 st.1 = some r1 → find idx2 st.1 = some r2 → r1 ≠ r2 →
      ∃ vs2 child root,
        unionStep (buildId2idx unique_id 0 IntMap.empty) st e = some (vs2, st.2 + 1) ∧
        ((child = r1 ∧ root = r2) ∨ (child = r2 ∧ root = r1)) ∧
        countOf st.1 child ≤ countOf st.1 root ∧
        parentOf vs2 child = root ∧ parentOf vs2 root = root ∧
        countOf vs2 root = countOf st.1 root + countOf st.1 child) := by
  obtain ⟨done, rt, dep, hP⟩ := reachable_inv hnd hreach
  have hF := hP.forest
  have hT := tableOk_build unique_id hnd
  obtain ⟨vs, c⟩ := st
  simp only at hP hF ⊢
  have hroot : ∀ r, r < vs.length → (parentOf vs r = r ↔ rt r = r) := by
    intro r hr
    have hv : vs[r]? = some vs[r] := List.getElem?_eq_getElem hr
    rw [parentOf_some hv, hF.root_iff hv, (hF.wf r _ hv).1]
  refine ⟨?_, ?_, ?_⟩
  · intro r v hv hp
    rw [hF.cnt r v hv hp]
    congr 1
    apply Finset.filter_congr
    intro i hi
    rw [hF.find_eq (Finset.mem_range.mp hi)]
    simp
  · have hfib := Finset.card_eq_sum_card_fiberwise (f := rt) (s := Finset.range vs.length)
      (t := (Finset.range vs.length).filter (fun r => parentOf vs r = r)) (by
        intro i hi
        have hil := Finset.mem_range.mp hi
        simp only [Finset.mem_filter, Finset.mem_range]
        exact ⟨hF.rt_lt hil, (hroot _ (hF.rt_lt hil)).mpr (hF.rt_idem hil)⟩)
    rw [Finset.card_range] at hfib
    refine Eq.trans ?_ hfib.symm
    apply Finset.sum_congr rfl
    intro r hr
    simp only [Finset.mem_filter, Finset.mem_range] at hr
    have hv : vs[r]? = some vs[r] := List.getElem?_eq_getElem hr.1
    rw [countOf_eq hv]
    exact hF.cnt r _ hv (by rw [← parentOf_some hv]; exact hr.2)
  · intro e idx1 idx2 r1 r2 h1 h2 hf1 hf2 hne
    have hl1 : idx1 < vs.length := by
      rw [hF.len]
      exact (List.getElem?_eq_some.mp ((hT _ _).mp h1)).1
    have hl2 : idx2 < vs.length := by
      rw [hF.len]
      exact (List.getElem?_eq_some.mp ((hT _ _).mp h2)).1
    rw [hF.find_eq hl1] at hf1
    rw [hF.find_eq hl2] at hf2
    simp only [Option.some.injEq] at hf1 hf2
    subst hf1 hf2
    exact unionStep_link_detail hP e h1 h2 hl1 hl2 hne

theorem C18_counts_and_union_by_size_witness :
    (∀ (r : Nat) (v : Vertex), (initVertices [2, 4, 6] 0, 0).1[r]? = some v → v.parent = r →
      v.count = ((Finset.range (initVertices [2, 4, 6] 0, 0).1.length).filter
        (fun i => find i (initVertices [2, 4, 6] 0, 0).1 = some r)).card) ∧
    Finset.sum ((Finset.range (initVertices [2, 4, 6] 0, 0).1.length).filter
        (fun r => parentOf (initVertices [2, 4, 6] 0, 0).1 r = r))
      (fun r => countOf (initVertices [2, 4, 6] 0, 0).1 r)
        = (initVertices [2, 4, 6] 0, 0).1.length ∧
    (∀ (e : Edge) (idx1 idx2 r1 r2 : Nat),
      buildId2idx [2, 4, 6] 0 IntMap.empty e.v1 = some idx1 →
      buildId2idx [2, 4, 6] 0 IntMap.empty e.v2 = some idx2 →
      find idx1 (initVertices [2, 4, 6] 0, 0).1 = some r1 →
      find idx2 (initVertices [2, 4, 6] 0, 0).1 = some r2 → r1 ≠ r2 →
      ∃ vs2 child root,
        unionStep (buildId2idx [2, 4, 6] 0 IntMap.empty) (initVertices [2, 4, 6] 0, 0) e
          = some (vs2, (initVertices [2, 4, 6] 0, 0).2 + 1) ∧
        ((child = r1 ∧ root = r2) ∨ (child = r2 ∧ root = r1)) ∧
        countOf (initVertices [2, 4, 6] 0, 0).1 child
          ≤ countOf (initVertices [2, 4, 6] 0, 0).1 root ∧
        parentOf vs2 child = root ∧ parentOf vs2 root = root ∧
        countOf vs2 root = countOf (initVertices [2, 4, 6] 0, 0).1 root
          + countOf (initVertices [2, 4, 6] 0, 0).1 child) :=
  C18_counts_and_union_by_size [2, 4, 6] (by decide) _ Reachable.init

end asp
